import Mathlib

/-!
# CorrCoef: packed upper-triangle Pearson correlation

A shallow embedding of `pearson` from `src/CorrCoef.c`.

* `double` values are read as elements of a type `α` with `0`, `+`, `-`, `*`, `/` and a cast
  from the naturals. The theorems in exact real arithmetic take `α = ℝ` with
  `sqrt = Real.sqrt`; the theorems on NaN and the infinities in arithmetic that is exact on
  finite values take `α = Dbl ℝ`; the theorems on the rounded arithmetic of `double` take
  `α = B64`, binary64 with round-to-nearest, overflow and gradual underflow. The library
  function `sqrt` of `math.h` is a parameter of the embedding, so that every definition is
  computable (e.g. over `ℚ`).
* `unsigned long` values are read as natural numbers; the theorems on the index arithmetic
  state that the subtractions of lines 57, 58 and 69 are never cut off at zero, and that the
  64-bit computation agrees with the natural numbers for `2 ≤ n ≤ 2^32`. The subtraction
  `l - 1` of lines 47 and 69 wraps for `l = 0`, an input `pearson` accepts; it is `ulPred`,
  with value `2^64 - 1` there.
* The input pointer `d` is read as the function from offsets to the stored values; the arrays
  `m`, `s` and the output `c` that `pearson` allocates are lists.
* `pearson` is the function when every allocation succeeds and the iterations of each
  `parallel for` loop run one after another, in increasing index order: the run on one thread.
  On several threads the work items of the pairwise pass share the variable `sum`; `raceRun`
  runs them under a schedule that interleaves their steps, and the stored values depend on
  the schedule. `pearsonAlloc` adds the outcomes of the allocations.
-/

namespace CorrCoef

section Program

variable {α : Type} [Zero α] [Add α] [Sub α] [Mul α] [Div α] [NatCast α]

/-! ## The program -/

/-- Number of unordered pairs, `nn = n * (n - 1) / 2` (line 20). -/
def nn (n : Nat) : Nat := n * (n - 1) / 2

/-- The unsigned subtraction `l - 1` of lines 47 and 69: `l - 1` for `l ≥ 1`, and the wrapped
value `2^64 - 1` for `l = 0`. -/
def ulPred (l : Nat) : Nat := if l = 0 then 2 ^ 64 - 1 else l - 1

/-- One iteration of the inner loop of the moment pass (lines 41-44) for row `i`, observation `k`,
acting on the running pair `(mk, sk)`. -/
def welfordStep (d : Nat → α) (l i : Nat) (st : α × α) (k : Nat) : α × α :=
  let dk := d (i * l + k)
  let h := dk - st.1
  let mk := st.1 + h / ((k + 1 : Nat) : α)
  let sk := st.2 + h * (dk - mk)
  (mk, sk)

/-- The inner loop of the moment pass (lines 39-45): `mk = sk = 0`, then `k = 0 .. l-1`. -/
def welford (d : Nat → α) (l i : Nat) : α × α :=
  (List.range l).foldl (welfordStep d l i) (0, 0)

/-- The value stored in `m[i]` (line 46). -/
def rowMean (d : Nat → α) (l i : Nat) : α := (welford d l i).1

/-- The value stored in `s[i]` (line 47): `sqrt(sk / (l - 1))`. -/
def rowStd (sqrt : α → α) (d : Nat → α) (l i : Nat) : α :=
  sqrt ((welford d l i).2 / ((ulPred l : Nat) : α))

/-- The moment pass (lines 38-48): the arrays `m` and `s`, one entry per row `i < n`. -/
def momentPass (sqrt : α → α) (d : Nat → α) (n l : Nat) : List α × List α :=
  ((List.range n).map (rowMean d l), (List.range n).map (rowStd sqrt d l))

/-- The forward index mapping (lines 54-59): work item `ik` to the pair `(i, k)`. -/
def forwardMap (n ik : Nat) : Nat × Nat :=
  let i := ik / n
  let k := ik % n
  if k ≤ i then (n - i - 2, n - k - 1) else (i, k)

/-- The packed output index of line 69, `nn-(n-i)*((n-i)-1)/2+k-i-1`. -/
def slot (n i k : Nat) : Nat :=
  nn n - (n - i) * ((n - i) - 1) / 2 + k - i - 1

/-- The reduction loop of lines 64-67: `sum = 0`, then
`sum += (d[i*l+o] - mi) * (d[k*l+o] - mk) / si / sk` for `o = 0 .. l-1`. -/
def pairSum (d : Nat → α) (l i k : Nat) (mi mk si sk : α) : α :=
  (List.range l).foldl
    (fun sum o => sum + (d (i * l + o) - mi) * (d (k * l + o) - mk) / si / sk) 0

/-- The value the pairwise pass computes for the pair `(i, k)` from the moment arrays
(lines 60-69): `sum / (l - 1)`. -/
def pairValue (d : Nat → α) (l : Nat) (m s : List α) (i k : Nat) : α :=
  let mi := m.getD i 0
  let mk := m.getD k 0
  let si := s.getD i 0
  let sk := s.getD k 0
  pairSum d l i k mi mk si sk / ((ulPred l : Nat) : α)

/-- One iteration of the pairwise pass (lines 54-69) on the output array `c`. -/
def pairwiseStep (d : Nat → α) (n l : Nat) (m s : List α) (c : List α) (ik : Nat) : List α :=
  let p := forwardMap n ik
  c.set (slot n p.1 p.2) (pairValue d l m s p.1 p.2)

/-- The pairwise pass (lines 53-70): `ik = 0 .. nn-1` on the output array `c`, the work items
taken one after another. For the work items on several threads see `raceRun`. -/
def pairwisePass (d : Nat → α) (n l : Nat) (m s : List α) (c : List α) : List α :=
  (List.range (nn n)).foldl (pairwiseStep d n l m s) c

/-- The function `pearson` (lines 9-75) when every allocation succeeds and the work items of
each pass are taken one after another: the output array is created with `nn` zeros (line 23),
then filled by the two passes. -/
def pearson (sqrt : α → α) (d : Nat → α) (n l : Nat) : List α :=
  let c := List.replicate (nn n) (0 : α)
  let ms := momentPass sqrt d n l
  pairwisePass d n l ms.1 ms.2 c

/-- The state of the pairwise pass when its work items run on several threads. The clause
`private(ik, i, k, mi, si, mk, sk, o)` of line 52 does not list `sum`, which is declared at
function scope (line 17): `sum` is one variable shared by all threads. The state holds that
variable, the output array, and for each work item the number of steps it has taken. -/
structure Shared (α : Type) where
  /-- The shared variable `sum`. -/
  sum : α
  /-- The output array `c`. -/
  out : List α
  /-- The number of steps each work item has taken. -/
  pc : Nat → Nat

/-- The next step of work item `ik`. Step 0 is lines 54-64: the private `i`, `k`, `mi`, `mk`,
`si`, `sk` are resolved and `sum = 0` is stored. Step 1 is the loop of lines 65-67: by its
clause `reduction(+:sum)` the terms are added up in a private copy that starts at `0`, and the
total is added to `sum` when the loop ends. Step 2 is line 69, which reads `sum`. -/
def raceStep (d : Nat → α) (n l : Nat) (m s : List α) (st : Shared α) (ik : Nat) : Shared α :=
  let p := forwardMap n ik
  let bump := fun j => if j = ik then st.pc j + 1 else st.pc j
  match st.pc ik with
  | 0 => ⟨0, st.out, bump⟩
  | 1 => ⟨st.sum + pairSum d l p.1 p.2 (m.getD p.1 0) (m.getD p.2 0) (s.getD p.1 0)
      (s.getD p.2 0), st.out, bump⟩
  | 2 => ⟨st.sum, st.out.set (slot n p.1 p.2) (st.sum / ((ulPred l : Nat) : α)), bump⟩
  | _ => st

/-- The pairwise pass under a schedule, the list of the work items in the order in which they
take their steps, from the output array `c`. -/
def raceRun (d : Nat → α) (n l : Nat) (m s : List α) (schedule : List Nat) (c : List α) :
    Shared α :=
  schedule.foldl (raceStep d n l m s) ⟨0, c, fun _ => 0⟩

/-- The input of the interleaved run below: `n = 3`, `l = 3`, rows `[1,2,3]`, `[2,4,6]`,
`[3,2,1]`. -/
def raceRows : Nat → α := fun j => ([1, 2, 3, 2, 4, 6, 3, 2, 1] : List Nat).getD j 0

/-- The schedule without interleaving: each work item `0 .. nn-1` takes its three steps in a
row. -/
def sequentialSchedule (n : Nat) : List Nat :=
  (List.range (nn n)).flatMap (fun ik => [ik, ik, ik])

/-! ### The index arithmetic in 64-bit `unsigned long` -/

/-- Addition of two `unsigned long` values, modulo `2^64`. -/
def add64 (a b : Nat) : Nat := (a + b) % 2 ^ 64

/-- Subtraction of two `unsigned long` values (both below `2^64`), modulo `2^64`. -/
def sub64 (a b : Nat) : Nat := (a + 2 ^ 64 - b) % 2 ^ 64

/-- Multiplication of two `unsigned long` values, modulo `2^64`. -/
def mul64 (a b : Nat) : Nat := (a * b) % 2 ^ 64

/-- Line 20 in 64-bit arithmetic: `nn = n * (n - 1) / 2`. -/
def nn64 (n : Nat) : Nat := mul64 n (sub64 n 1) / 2

/-- Lines 54-59 in 64-bit arithmetic. -/
def forwardMap64 (n ik : Nat) : Nat × Nat :=
  let i := ik / n
  let k := ik % n
  if k ≤ i then (sub64 (sub64 n i) 2, sub64 (sub64 n k) 1) else (i, k)

/-- The index expression of line 69 in 64-bit arithmetic, evaluated left to right:
`nn-(n-i)*((n-i)-1)/2+k-i-1`. -/
def slot64 (n i k : Nat) : Nat :=
  sub64 (sub64 (add64 (sub64 (nn64 n) (mul64 (sub64 n i) (sub64 (sub64 n i) 1) / 2)) k) i) 1

end Program

/-! ## Doubles with NaN and the infinities -/

/-- A `double` whose finite values are exact elements of an ordered field: a finite value, an
infinity with its sign (`neg = true` for `-∞`), or NaN. The operations below follow IEEE 754 on
the infinities and NaN and are exact on finite values (no rounding, no overflow, no
underflow); the operations of `B64` further down round. Zero carries no sign: a nonzero finite
value divided by zero is the infinity with the sign of the dividend, which is the IEEE result
for the divisor `+0`. -/
inductive Dbl (α : Type) where
  | fin (x : α)
  | inf (neg : Bool)
  | nan

section Doubles

variable {α : Type} [LinearOrderedField α]

/-- Negation of a double. -/
def Dbl.neg : Dbl α → Dbl α
  | Dbl.fin x => Dbl.fin (-x)
  | Dbl.inf s => Dbl.inf (!s)
  | Dbl.nan => Dbl.nan

/-- Addition of doubles: `∞ + (-∞)` is NaN, NaN is absorbing. -/
def Dbl.add : Dbl α → Dbl α → Dbl α
  | Dbl.fin x, Dbl.fin y => Dbl.fin (x + y)
  | Dbl.fin _, Dbl.inf t => Dbl.inf t
  | Dbl.fin _, Dbl.nan => Dbl.nan
  | Dbl.inf s, Dbl.fin _ => Dbl.inf s
  | Dbl.inf s, Dbl.inf t => if s = t then Dbl.inf s else Dbl.nan
  | Dbl.inf _, Dbl.nan => Dbl.nan
  | Dbl.nan, _ => Dbl.nan

/-- Subtraction of doubles, `a + (-b)`. -/
def Dbl.sub (a b : Dbl α) : Dbl α := Dbl.add a (Dbl.neg b)

/-- Multiplication of doubles: `0 * ∞` is NaN, NaN is absorbing. -/
def Dbl.mul : Dbl α → Dbl α → Dbl α
  | Dbl.fin x, Dbl.fin y => Dbl.fin (x * y)
  | Dbl.fin x, Dbl.inf t => if x = 0 then Dbl.nan else Dbl.inf (xor t (decide (x < 0)))
  | Dbl.fin _, Dbl.nan => Dbl.nan
  | Dbl.inf s, Dbl.fin y => if y = 0 then Dbl.nan else Dbl.inf (xor s (decide (y < 0)))
  | Dbl.inf s, Dbl.inf t => Dbl.inf (xor s t)
  | Dbl.inf _, Dbl.nan => Dbl.nan
  | Dbl.nan, _ => Dbl.nan

/-- Division of doubles: `0 / 0` and `∞ / ∞` are NaN, a nonzero finite value over `0` is an
infinity, a finite value over an infinity is `0`, NaN is absorbing. -/
def Dbl.div : Dbl α → Dbl α → Dbl α
  | Dbl.fin x, Dbl.fin y =>
    if y = 0 then (if x = 0 then Dbl.nan else Dbl.inf (decide (x < 0))) else Dbl.fin (x / y)
  | Dbl.fin _, Dbl.inf _ => Dbl.fin 0
  | Dbl.fin _, Dbl.nan => Dbl.nan
  | Dbl.inf s, Dbl.fin y => Dbl.inf (xor s (decide (y < 0)))
  | Dbl.inf _, Dbl.inf _ => Dbl.nan
  | Dbl.inf _, Dbl.nan => Dbl.nan
  | Dbl.nan, _ => Dbl.nan

/-- The function `sqrt` of `math.h` on doubles, from the square root `sq` on nonnegative finite
values: NaN on negative arguments and on NaN, `+∞` on `+∞`. -/
def Dbl.sqrt (sq : α → α) : Dbl α → Dbl α
  | Dbl.fin x => if x < 0 then Dbl.nan else Dbl.fin (sq x)
  | Dbl.inf false => Dbl.inf false
  | Dbl.inf true => Dbl.nan
  | Dbl.nan => Dbl.nan

instance Dbl.instZero : Zero (Dbl α) := ⟨Dbl.fin 0⟩

instance Dbl.instAdd : Add (Dbl α) := ⟨Dbl.add⟩

instance Dbl.instSub : Sub (Dbl α) := ⟨Dbl.sub⟩

instance Dbl.instMul : Mul (Dbl α) := ⟨Dbl.mul⟩

instance Dbl.instDiv : Div (Dbl α) := ⟨Dbl.div⟩

/-- Conversion of an `unsigned long` to a double (exact). -/
instance Dbl.instNatCast : NatCast (Dbl α) := ⟨fun n => Dbl.fin (n : α)⟩

/-- An input matrix of finite values. -/
def finData (x : Nat → α) : Nat → Dbl α := fun j => Dbl.fin (x j)

end Doubles

/-! ## Binary64 doubles

The type `B64` below is `double` with the rounding of IEEE 754 binary64: every operation
computes the exact result of its finite operands as a rational and rounds it to the nearest
value with 53 significant bits (ties to even), with gradual underflow below `2^-1022` and
overflow to an infinity from `2^1024` on. Each C operation is rounded by itself (no fused
multiply-add, no extended precision). As in `Dbl`, zero carries no sign. -/

deriving instance DecidableEq for Dbl

/-- The power `2^e` as a rational. -/
def pow2 (e : Int) : ℚ :=
  if 0 ≤ e then ((2 ^ e.toNat : Nat) : ℚ) else 1 / ((2 ^ (-e).toNat : Nat) : ℚ)

/-- Binary search for the position of the leading bit: with `b` bits of the exponent left to
decide and `2^r ≤ n`, the largest exponent `e < r + 2^b` with `2^e ≤ n`. -/
def log2Loop : Nat → Nat → Nat → Nat
  | 0, _, r => r
  | b + 1, n, r => if 2 ^ (r + 2 ^ b) ≤ n then log2Loop b n (r + 2 ^ b) else log2Loop b n r

/-- The largest `e` with `2^e ≤ n`, for `1 ≤ n < 2^4096`. -/
def log2 (n : Nat) : Nat := log2Loop 12 n 0

/-- The integer `e` with `2^e ≤ a < 2^(e+1)`, for a positive rational `a` whose numerator and
denominator are below `2^4096`. -/
def floorLog2 (a : ℚ) : Int :=
  let e0 : Int := (log2 a.num.natAbs : Int) - (log2 a.den : Int)
  if pow2 e0 ≤ a then e0 else e0 - 1

/-- The integer nearest to a nonnegative rational, ties to the even one. -/
def roundEven (t : ℚ) : Int :=
  let f := ⌊t⌋
  let r := t - f
  if r < 1 / 2 then f else if 1 / 2 < r then f + 1 else if f % 2 = 0 then f else f + 1

/-- Rounding of an exact result `q` to binary64, to nearest with ties to even: the spacing of
the doubles around `|q|` is `2^(e-52)` with `2^e ≤ |q| < 2^(e+1)`, and `2^-1074` below
`2^-1022`; a rounded magnitude of `2^1024` or more is an infinity. -/
def round64 (q : ℚ) : Dbl ℚ :=
  if q = 0 then Dbl.fin 0 else
    let a := |q|
    let e := max (floorLog2 a) (-1022)
    let ulp := pow2 (e - 52)
    let v := (roundEven (a / ulp) : ℚ) * ulp
    if pow2 1024 ≤ v then Dbl.inf (decide (q < 0)) else Dbl.fin (if q < 0 then -v else v)

/-- Binary search for the integer square root: with `b` bits left to decide and `r * r ≤ n`,
the largest `t < r + 2^b` with `t * t ≤ n`. -/
def isqrtLoop : Nat → Nat → Nat → Nat
  | 0, _, r => r
  | b + 1, n, r =>
    if (r + 2 ^ b) * (r + 2 ^ b) ≤ n then isqrtLoop b n (r + 2 ^ b) else isqrtLoop b n r

/-- The largest `t` with `t * t ≤ n`, for `n < 2^128`. -/
def isqrt (n : Nat) : Nat := isqrtLoop 64 n 0

/-- The square root of a nonnegative double `x`, rounded to binary64: with
`4^h ≤ x < 4^(h+1)` the root lies in `[2^h, 2^(h+1))`, where the spacing of the doubles is
`2^(h-52)`; the root is rounded to the nearest multiple of that spacing. -/
def sqrt64 (x : ℚ) : Dbl ℚ :=
  if x = 0 then Dbl.fin 0 else
    let h := floorLog2 x / 2
    let ulp := pow2 (h - 52)
    let y := x / (ulp * ulp)
    let f : ℚ := (isqrt ⌊y⌋.toNat : ℚ)
    let m : ℚ := if y < (f + 1 / 2) * (f + 1 / 2) then f else f + 1
    Dbl.fin (m * ulp)

/-- A `double` with binary64 rounding: the finite values are rationals, and every operation
below rounds its exact result with `round64`. -/
structure B64 where
  /-- The value: finite, an infinity or NaN. -/
  val : Dbl ℚ
  deriving DecidableEq

/-- Addition of doubles, rounded. -/
def B64.add (a b : B64) : B64 :=
  match a.val, b.val with
  | Dbl.fin x, Dbl.fin y => ⟨round64 (x + y)⟩
  | u, v => ⟨Dbl.add u v⟩

/-- Subtraction of doubles, rounded. -/
def B64.sub (a b : B64) : B64 :=
  match a.val, b.val with
  | Dbl.fin x, Dbl.fin y => ⟨round64 (x - y)⟩
  | u, v => ⟨Dbl.sub u v⟩

/-- Multiplication of doubles, rounded. -/
def B64.mul (a b : B64) : B64 :=
  match a.val, b.val with
  | Dbl.fin x, Dbl.fin y => ⟨round64 (x * y)⟩
  | u, v => ⟨Dbl.mul u v⟩

/-- Division of doubles, rounded; division by zero is as in `Dbl.div`. -/
def B64.div (a b : B64) : B64 :=
  match a.val, b.val with
  | Dbl.fin x, Dbl.fin y =>
    if y = 0 then ⟨Dbl.div (Dbl.fin x) (Dbl.fin y)⟩ else ⟨round64 (x / y)⟩
  | u, v => ⟨Dbl.div u v⟩

/-- The function `sqrt` of `math.h` on binary64 doubles. -/
def B64.sqrt (a : B64) : B64 :=
  match a.val with
  | Dbl.fin x => if x < 0 then ⟨Dbl.nan⟩ else ⟨sqrt64 x⟩
  | Dbl.inf false => ⟨Dbl.inf false⟩
  | _ => ⟨Dbl.nan⟩

instance B64.instZero : Zero B64 := ⟨⟨Dbl.fin 0⟩⟩

instance B64.instAdd : Add B64 := ⟨B64.add⟩

instance B64.instSub : Sub B64 := ⟨B64.sub⟩

instance B64.instMul : Mul B64 := ⟨B64.mul⟩

instance B64.instDiv : Div B64 := ⟨B64.div⟩

/-- Conversion of an `unsigned long` to a double, rounded. -/
instance B64.instNatCast : NatCast B64 := ⟨fun n => ⟨round64 n⟩⟩

/-- An input matrix of doubles, from a list of rationals (each rounded to binary64) in row-major
order. -/
def b64Rows (xs : List ℚ) : Nat → B64 := fun j => ⟨round64 (xs.getD j 0)⟩

/-- Rows `[1,2,3,4] * 2^-600`, `[5,5,5,5]`, `[1,2,3,4]` (`n = 3`, `l = 4`): every entry is a
double, row 1 is constant, and the squared deviations of row 0 are below the smallest
positive double. -/
def tinyRows : Nat → B64 :=
  b64Rows [1 / 2 ^ 600, 2 / 2 ^ 600, 3 / 2 ^ 600, 4 / 2 ^ 600, 5, 5, 5, 5, 1, 2, 3, 4]

/-- Rows `[1,2,3,4]`, `[5,5,5,5]`, `[2,1,4,3]` (`n = 3`, `l = 4`) as doubles. -/
def mixedRows : Nat → B64 := b64Rows [1, 2, 3, 4, 5, 5, 5, 5, 2, 1, 4, 3]

variable {α : Type} [Field α]

/-! ## Index helpers, reference quantities (the formulas of the specification) and sample data -/

/-- Triangular number `a * (a - 1) / 2`, the shape of both `nn` and the row offset in `slot`. -/
def tri (a : Nat) : Nat := a * (a - 1) / 2

/-- The packed index that work item `ik` writes. -/
def target (n ik : Nat) : Nat := slot n (forwardMap n ik).1 (forwardMap n ik).2

/-- The pairs `i' < k' < n` that come before `(i, k)` in lexicographic order. -/
def lexBefore (n i k : Nat) : Finset (Nat × Nat) :=
  (Finset.range n ×ˢ Finset.range n).filter
    (fun p => p.1 < p.2 ∧ (p.1 < i ∨ (p.1 = i ∧ p.2 < k)))

/-- Arithmetic mean of row `i`: `(Σ_o x[i,o]) / l`. -/
def meanRef (d : Nat → α) (l i : Nat) : α :=
  (∑ o ∈ Finset.range l, d (i * l + o)) / (l : α)

/-- Sum of squared deviations of row `i` from its mean. -/
def devSq (d : Nat → α) (l i : Nat) : α :=
  ∑ o ∈ Finset.range l, (d (i * l + o) - meanRef d l i) ^ 2

/-- Sum of products of deviations of rows `i` and `k` from their means. -/
def coDev (d : Nat → α) (l i k : Nat) : α :=
  ∑ o ∈ Finset.range l, (d (i * l + o) - meanRef d l i) * (d (k * l + o) - meanRef d l k)

/-- Pearson correlation of rows `i` and `k`: `coDev / sqrt (devSq i * devSq k)`. -/
def pearsonRef (sqrt : α → α) (d : Nat → α) (l i k : Nat) : α :=
  coDev d l i k / sqrt (devSq d l i * devSq d l k)

/-- Sample standard deviation of row `i`, denominator `l - 1`. -/
def stdRef (sqrt : α → α) (d : Nat → α) (l i : Nat) : α :=
  sqrt (devSq d l i / ((l : α) - 1))

/-- Row `i` is not constant: two of its `l` observations differ. -/
def NonConstant (d : Nat → α) (l i : Nat) : Prop :=
  ∃ o, o < l ∧ ∃ o', o' < l ∧ d (i * l + o) ≠ d (i * l + o')

/-- Row `k` is the image of row `i` under `x ↦ a * x + b`. -/
def AffineRow (d : Nat → α) (l i k : Nat) (a b : α) : Prop :=
  ∀ o, o < l → d (k * l + o) = a * d (i * l + o) + b

/-- The memory that holds the values `xs` at offsets `0, 1, ...` (and `0` beyond them). -/
def sampleRows (xs : List α) : Nat → α := fun j => xs.getD j 0

/-- The known-value input of the specification: `n = 2`, `l = 3`, `x[0] = [1,2,3]`,
`x[1] = [2,4,6]`. -/
def knownRows : Nat → α := sampleRows [1, 2, 3, 2, 4, 6]

/-! ## Index arithmetic -/

theorem sub64_eq (a b : Nat) (hb : b ≤ a) (ha : a < 2 ^ 64) : sub64 a b = a - b := by
  unfold sub64
  omega

theorem add64_eq (a b : Nat) (h : a + b < 2 ^ 64) : add64 a b = a + b :=
  Nat.mod_eq_of_lt h

theorem mul64_eq (a b : Nat) (h : a * b < 2 ^ 64) : mul64 a b = a * b :=
  Nat.mod_eq_of_lt h

/-- For `n ≤ 2^32` the product `n * (n - 1)` fits in 64 bits. -/
theorem mul_pred_lt (n : Nat) (hn : n ≤ 2 ^ 32) : n * (n - 1) < 2 ^ 64 := by
  have h1 : n * (n - 1) ≤ 2 ^ 32 * (2 ^ 32 - 1) := Nat.mul_le_mul hn (by omega)
  have h2 : 2 ^ 32 * (2 ^ 32 - 1) < 2 ^ 64 := by norm_num
  omega

theorem ulPred_of_pos (l : Nat) (hl : 1 ≤ l) : ulPred l = l - 1 := by
  unfold ulPred
  rw [if_neg (by omega)]

theorem tri_succ (a : Nat) : tri (a + 1) = tri a + a := by
  unfold tri
  exact Nat.triangle_succ a

theorem tri_mono {a b : Nat} (h : a ≤ b) : tri a ≤ tri b := by
  induction b with
  | zero =>
    have : a = 0 := by omega
    subst this
    exact le_refl _
  | succ b ih =>
    rcases Nat.lt_or_ge a (b + 1) with h1 | h1
    · have := ih (by omega)
      rw [tri_succ]
      omega
    · have : a = b + 1 := by omega
      subst this
      exact le_refl _

theorem two_mul_tri (a : Nat) : 2 * tri a = a * (a - 1) := by
  unfold tri
  exact Nat.two_mul_div_two_of_even (Nat.even_mul_pred_self a)

theorem nn_eq_tri (n : Nat) : nn n = tri n := rfl

theorem slot_eq_tri (n i k : Nat) : slot n i k = tri n - tri (n - i) + k - i - 1 := rfl

/-- No subtraction in `slot` is cut off: `slot n i k + tri (n - i) + i + 1 = nn + k`. -/
theorem slot_add (n i k : Nat) (hik : i < k) :
    slot n i k + tri (n - i) + i + 1 = nn n + k := by
  have h := tri_mono (Nat.sub_le n i)
  rw [slot_eq_tri, nn_eq_tri]
  omega

theorem tri_sub_succ (n i : Nat) (hi : i < n) :
    tri (n - i) = tri (n - (i + 1)) + (n - (i + 1)) := by
  have : n - i = (n - (i + 1)) + 1 := by omega
  rw [this, tri_succ]

theorem slot_lt (n i k : Nat) (hik : i < k) (hk : k < n) : slot n i k < nn n := by
  have h := slot_add n i k hik
  have h1 := tri_sub_succ n i (by omega)
  omega

theorem slot_lt_of_row_lt (n i k i' k' : Nat) (hik : i < k) (hk : k < n) (hik' : i' < k')
    (hii : i < i') : slot n i k < slot n i' k' := by
  have h := slot_add n i k hik
  have h' := slot_add n i' k' hik'
  have h1 := tri_sub_succ n i (by omega)
  have h2 : tri (n - i') ≤ tri (n - (i + 1)) := tri_mono (by omega)
  omega

theorem slot_inj (n i k i' k' : Nat) (hik : i < k) (hk : k < n) (hik' : i' < k') (hk' : k' < n)
    (h : slot n i k = slot n i' k') : i = i' ∧ k = k' := by
  rcases Nat.lt_trichotomy i i' with hlt | heq | hgt
  · have := slot_lt_of_row_lt n i k i' k' hik hk hik' hlt
    omega
  · subst heq
    have h1 := slot_add n i k hik
    have h2 := slot_add n i k' hik'
    omega
  · have := slot_lt_of_row_lt n i' k' i k hik' hk' hik hgt
    omega

theorem slot_first (n : Nat) : slot n 0 1 = 0 := by
  have h := slot_add n 0 1 (by omega)
  rw [nn_eq_tri] at h
  simp only [Nat.sub_zero] at h
  omega

theorem slot_succ_col (n i k : Nat) (hik : i < k) : slot n i (k + 1) = slot n i k + 1 := by
  have h1 := slot_add n i k hik
  have h2 := slot_add n i (k + 1) (by omega)
  omega

theorem slot_succ_row (n i : Nat) (hi : i + 2 < n) :
    slot n (i + 1) (i + 2) = slot n i (n - 1) + 1 := by
  have h1 := slot_add n i (n - 1) (by omega)
  have h2 := slot_add n (i + 1) (i + 2) (by omega)
  have h3 := tri_sub_succ n i (by omega)
  omega

theorem slot_last (n : Nat) (hn : 2 ≤ n) : slot n (n - 2) (n - 1) + 1 = nn n := by
  have h1 := slot_add n (n - 2) (n - 1) (by omega)
  have h2 : n - (n - 2) = 2 := by omega
  rw [h2] at h1
  have h3 : tri 2 = 1 := by decide
  omega

theorem slot_surj (n : Nat) (hn : 2 ≤ n) (j : Nat) (hj : j < nn n) :
    ∃ i k, i < k ∧ k < n ∧ slot n i k = j := by
  induction j with
  | zero => exact ⟨0, 1, by omega, by omega, slot_first n⟩
  | succ j ih =>
    obtain ⟨i, k, hik, hk, hs⟩ := ih (by omega)
    rcases Nat.lt_or_ge (k + 1) n with h1 | h1
    · exact ⟨i, k + 1, by omega, h1, by rw [slot_succ_col n i k hik, hs]⟩
    · have hk1 : k = n - 1 := by omega
      subst hk1
      rcases Nat.lt_or_ge (i + 2) n with h2 | h2
      · exact ⟨i + 1, i + 2, by omega, h2, by rw [slot_succ_row n i h2, hs]⟩
      · have hi : i = n - 2 := by omega
        subst hi
        have := slot_last n hn
        omega

theorem slot_lt_of_lex (n i k i' k' : Nat) (hik : i < k) (hk : k < n) (hik' : i' < k')
    (hlex : i < i' ∨ (i = i' ∧ k < k')) : slot n i k < slot n i' k' := by
  rcases hlex with h | ⟨h1, h2⟩
  · exact slot_lt_of_row_lt n i k i' k' hik hk hik' h
  · subst h1
    have e1 := slot_add n i k hik
    have e2 := slot_add n i k' hik'
    omega

/-- The slot of a pair is the number of pairs before it in lexicographic order. -/
theorem slot_eq_card (n i k : Nat) (hn : 2 ≤ n) (hik : i < k) (hk : k < n) :
    slot n i k = (lexBefore n i k).card := by
  rw [← Finset.card_range (slot n i k)]
  symm
  apply Finset.card_nbij (fun p => slot n p.1 p.2)
  · intro p hp
    simp only [lexBefore, Finset.mem_filter, Finset.mem_product, Finset.mem_range] at hp
    exact Finset.mem_range.mpr (slot_lt_of_lex n p.1 p.2 i k hp.2.1 hp.1.2 hik hp.2.2)
  · intro p hp q hq hpq
    simp only [lexBefore, Finset.coe_filter, Finset.mem_product, Finset.mem_range,
      Set.mem_setOf_eq] at hp hq
    have := slot_inj n p.1 p.2 q.1 q.2 hp.2.1 hp.1.2 hq.2.1 hq.1.2 hpq
    exact Prod.ext this.1 this.2
  · intro j hj
    have hj' : j < slot n i k := Finset.mem_range.mp hj
    obtain ⟨i', k', hik', hk', hs⟩ := slot_surj n hn j (lt_trans hj' (slot_lt n i k hik hk))
    refine ⟨(i', k'), ?_, hs⟩
    simp only [lexBefore, Finset.coe_filter, Finset.mem_product, Finset.mem_range,
      Set.mem_setOf_eq]
    refine ⟨⟨by omega, hk'⟩, hik', ?_⟩
    by_contra hc
    have hge : (i, k) = (i', k') ∨ (i < i' ∨ (i = i' ∧ k < k')) := by
      by_cases h1 : i = i' ∧ k = k'
      · exact Or.inl (Prod.ext h1.1 h1.2)
      · right
        omega
    rcases hge with heq | hlt
    · have h1 : i = i' := congrArg Prod.fst heq
      have h2 : k = k' := congrArg Prod.snd heq
      subst h1 h2
      omega
    · have := slot_lt_of_lex n i k i' k' hik hk hik' hlt
      omega

/-- The row and column that line 54-55 read off a work item. -/
theorem div_mod_facts (n ik : Nat) (hn : 2 ≤ n) (hik : ik < nn n) :
    n * (ik / n) + ik % n = ik ∧ ik % n < n ∧ 2 * (ik / n) + 2 ≤ n := by
  refine ⟨Nat.div_add_mod ik n, Nat.mod_lt _ (by omega), ?_⟩
  have h2 := two_mul_tri n
  rw [← nn_eq_tri] at h2
  have h3 := Nat.div_add_mod ik n
  by_contra hc
  have h4 : n * (n - 1) ≤ n * (2 * (ik / n)) := Nat.mul_le_mul_left n (by omega)
  have h5 : n * (2 * (ik / n)) = 2 * (n * (ik / n)) := by ring
  omega

/-- Each work item is either its own row-major code `n * i + k`, or the mirror image of it. -/
theorem forwardMap_code (n ik : Nat) (hn : 2 ≤ n) (hik : ik < nn n) :
    (forwardMap n ik).1 < (forwardMap n ik).2 ∧ (forwardMap n ik).2 < n ∧
    (n * (forwardMap n ik).1 + (forwardMap n ik).2 = ik ∨
     n * (forwardMap n ik).1 + (forwardMap n ik).2 + ik + 1 = 2 * nn n) := by
  obtain ⟨h1, h2, h3⟩ := div_mod_facts n ik hn hik
  have h4 := two_mul_tri n
  rw [← nn_eq_tri] at h4
  unfold forwardMap
  by_cases hc : ik % n ≤ ik / n
  · simp only [hc, if_true]
    refine ⟨by omega, by omega, Or.inr ?_⟩
    have e1 : n * (n - ik / n - 2) + n * (ik / n) + n * 2 = n * n := by
      rw [← Nat.mul_add, ← Nat.mul_add]
      congr 1
      omega
    have e2 : n * (n - 1) + n = n * n := by
      rw [← Nat.mul_succ]
      congr 1
      omega
    omega
  · simp only [hc, if_false]
    exact ⟨by omega, h2, Or.inl h1⟩

theorem forwardMap_inj (n ik ik' : Nat) (hn : 2 ≤ n) (hik : ik < nn n)
    (hik' : ik' < nn n) (h : forwardMap n ik = forwardMap n ik') : ik = ik' := by
  obtain ⟨_, _, h1⟩ := forwardMap_code n ik hn hik
  obtain ⟨_, _, h2⟩ := forwardMap_code n ik' hn hik'
  rw [h] at h1
  rcases h1 with h1 | h1 <;> rcases h2 with h2 | h2 <;> omega

theorem forwardMap_surj (n i k : Nat) (hik : i < k) (hk : k < n) :
    ∃ ik, ik < nn n ∧ forwardMap n ik = (i, k) := by
  have h4 := two_mul_tri n
  rw [← nn_eq_tri] at h4
  have e2 : n * (n - 1) + n = n * n := by
    rw [← Nat.mul_succ]
    congr 1
    omega
  rcases Nat.lt_or_ge (n * i + k) (nn n) with hc | hc
  · refine ⟨n * i + k, hc, ?_⟩
    unfold forwardMap
    have d1 : (n * i + k) / n = i := by
      rw [Nat.mul_add_div (by omega), Nat.div_eq_of_lt hk, Nat.add_zero]
    have d2 : (n * i + k) % n = k := by
      rw [Nat.mul_add_mod, Nat.mod_eq_of_lt hk]
    rw [d1, d2, if_neg (by omega)]
  · refine ⟨n * (n - i - 2) + (n - k - 1), ?_, ?_⟩
    · have e1 : n * (n - i - 2) + n * i + n * 2 = n * n := by
        rw [← Nat.mul_add, ← Nat.mul_add]
        congr 1
        omega
      omega
    · unfold forwardMap
      have hk' : n - k - 1 < n := by omega
      have d1 : (n * (n - i - 2) + (n - k - 1)) / n = n - i - 2 := by
        rw [Nat.mul_add_div (by omega), Nat.div_eq_of_lt hk', Nat.add_zero]
      have d2 : (n * (n - i - 2) + (n - k - 1)) % n = n - k - 1 := by
        rw [Nat.mul_add_mod, Nat.mod_eq_of_lt hk']
      rw [d1, d2, if_pos (by omega)]
      congr 1 <;> omega

theorem target_lt (n ik : Nat) (hn : 2 ≤ n) (hik : ik < nn n) :
    target n ik < nn n := by
  obtain ⟨h1, h2, _⟩ := forwardMap_code n ik hn hik
  exact slot_lt n _ _ h1 h2

theorem target_inj (n ik ik' : Nat) (hn : 2 ≤ n) (hik : ik < nn n)
    (hik' : ik' < nn n) (h : target n ik = target n ik') : ik = ik' := by
  obtain ⟨h1, h2, _⟩ := forwardMap_code n ik hn hik
  obtain ⟨h1', h2', _⟩ := forwardMap_code n ik' hn hik'
  have := slot_inj n _ _ _ _ h1 h2 h1' h2' h
  exact forwardMap_inj n ik ik' hn hik hik' (Prod.ext this.1 this.2)

theorem target_surj (n j : Nat) (hn : 2 ≤ n) (hj : j < nn n) :
    ∃ ik, ik < nn n ∧ target n ik = j := by
  obtain ⟨i, k, hik, hk, hs⟩ := slot_surj n hn j hj
  obtain ⟨ik, h1, h2⟩ := forwardMap_surj n i k hik hk
  exact ⟨ik, h1, by unfold target; rw [h2]; exact hs⟩

/-! ## Loops as sums -/

theorem foldl_add_eq_sum (f : Nat → α) (j : Nat) :
    (List.range j).foldl (fun acc o => acc + f o) 0 = ∑ o ∈ Finset.range j, f o := by
  induction j with
  | zero => simp
  | succ j ih =>
    rw [List.range_succ, List.foldl_append, ih, Finset.sum_range_succ]
    rfl

/-- Invariant of the Welford loop after `j` observations, in terms of the running sum and the
running sum of squares. -/
theorem welford_invariant [CharZero α] (d : Nat → α) (l i j : Nat) :
    ((List.range j).foldl (welfordStep d l i) (0, 0)).1 * (j : α)
        = ∑ o ∈ Finset.range j, d (i * l + o) ∧
    ((List.range j).foldl (welfordStep d l i) (0, 0)).2
        = ∑ o ∈ Finset.range j, d (i * l + o) ^ 2
          - ((List.range j).foldl (welfordStep d l i) (0, 0)).1
            * ∑ o ∈ Finset.range j, d (i * l + o) := by
  induction j with
  | zero => simp
  | succ j ih =>
    obtain ⟨ih1, ih2⟩ := ih
    rw [List.range_succ, List.foldl_append]
    simp only [List.foldl_cons, List.foldl_nil]
    generalize (List.range j).foldl (welfordStep d l i) (0, 0) = st at ih1 ih2
    obtain ⟨m, q⟩ := st
    simp only at ih1 ih2
    simp only [welfordStep, Finset.sum_range_succ]
    rw [← ih1, ih2, ← ih1]
    have hj : ((j + 1 : Nat) : α) ≠ 0 := Nat.cast_ne_zero.mpr (Nat.succ_ne_zero j)
    push_cast at hj ⊢
    constructor
    · field_simp
      ring
    · field_simp
      ring

theorem welford_mean [CharZero α] (d : Nat → α) (l i : Nat) :
    rowMean d l i = meanRef d l i := by
  unfold rowMean meanRef welford
  have h := (welford_invariant d l i l).1
  rcases Nat.eq_zero_or_pos l with h0 | h0
  · subst h0
    simp
  · have hl : (l : α) ≠ 0 := Nat.cast_ne_zero.mpr (by omega)
    rw [← h]
    field_simp

theorem devSq_eq [CharZero α] (d : Nat → α) (l i : Nat) :
    devSq d l i = ∑ o ∈ Finset.range l, d (i * l + o) ^ 2
      - meanRef d l i * ∑ o ∈ Finset.range l, d (i * l + o) := by
  have hS : meanRef d l i * (l : α) = ∑ o ∈ Finset.range l, d (i * l + o) := by
    rw [← welford_mean]
    exact (welford_invariant d l i l).1
  unfold devSq
  have e : ∀ o, (d (i * l + o) - meanRef d l i) ^ 2
      = d (i * l + o) ^ 2 - 2 * meanRef d l i * d (i * l + o) + meanRef d l i ^ 2 := by
    intro o
    ring
  simp only [e, Finset.sum_add_distrib, Finset.sum_sub_distrib, ← Finset.mul_sum,
    Finset.sum_const, Finset.card_range, nsmul_eq_mul]
  rw [← hS]
  ring

theorem welford_devSq [CharZero α] (d : Nat → α) (l i : Nat) :
    (welford d l i).2 = devSq d l i := by
  rw [devSq_eq, ← welford_mean]
  exact (welford_invariant d l i l).2

theorem rowStd_eq [CharZero α] (sqrt : α → α) (d : Nat → α) (l i : Nat) (hl : 1 ≤ l) :
    rowStd sqrt d l i = stdRef sqrt d l i := by
  unfold rowStd stdRef
  rw [welford_devSq, ulPred_of_pos l hl, Nat.cast_sub hl, Nat.cast_one]

/-! ## The output array -/

theorem momentPass_mean {β : Type} [Zero β] [Add β] [Sub β] [Mul β] [Div β] [NatCast β]
    (sqrt : β → β) (d : Nat → β) (n l i : Nat) (hi : i < n) :
    (momentPass sqrt d n l).1.getD i 0 = rowMean d l i := by
  simp [momentPass, List.getD_eq_getElem?_getD, hi]

theorem momentPass_std {β : Type} [Zero β] [Add β] [Sub β] [Mul β] [Div β] [NatCast β]
    (sqrt : β → β) (d : Nat → β) (n l i : Nat) (hi : i < n) :
    (momentPass sqrt d n l).2.getD i 0 = rowStd sqrt d l i := by
  simp [momentPass, List.getD_eq_getElem?_getD, hi]

theorem pairSum_eq (d : Nat → α) (l i k : Nat) (mi mk si sk : α) :
    pairSum d l i k mi mk si sk
      = (∑ o ∈ Finset.range l, (d (i * l + o) - mi) * (d (k * l + o) - mk)) / si / sk := by
  unfold pairSum
  rw [foldl_add_eq_sum, Finset.sum_div, Finset.sum_div]

theorem pairwise_length {β : Type} (f : Nat → Nat) (v : Nat → β) (xs : List Nat)
    (c : List β) :
    (xs.foldl (fun c ik => c.set (f ik) (v ik)) c).length = c.length := by
  induction xs generalizing c with
  | nil => rfl
  | cons x xs ih => rw [List.foldl_cons, ih, List.length_set]

theorem pairwise_untouched {β : Type} (f : Nat → Nat) (v : Nat → β) (xs : List Nat)
    (buf : List β) (j : Nat)
    (hj : ∀ a ∈ xs, f a ≠ j) :
    (xs.foldl (fun c ik => c.set (f ik) (v ik)) buf)[j]? = buf[j]? := by
  induction xs generalizing buf with
  | nil => rfl
  | cons x xs ih =>
    rw [List.foldl_cons, ih _ (fun a ha => hj a (List.mem_cons_of_mem x ha))]
    exact List.getElem?_set_ne (hj x (List.mem_cons_self x xs))

theorem pairwise_written {β : Type} (f : Nat → Nat) (v : Nat → β) (xs : List Nat)
    (c : List β) (a : Nat)
    (ha : a ∈ xs) (hlt : f a < c.length)
    (hinj : ∀ b ∈ xs, f b = f a → b = a) :
    (xs.foldl (fun c ik => c.set (f ik) (v ik)) c)[f a]? = some (v a) := by
  induction xs generalizing c with
  | nil => cases ha
  | cons x xs ih =>
    rw [List.foldl_cons]
    by_cases hmem : a ∈ xs
    · exact ih _ hmem (by rw [List.length_set]; exact hlt)
        (fun b hb => hinj b (List.mem_cons_of_mem x hb))
    · have hx : a = x := by
        rcases List.mem_cons.mp ha with h | h
        · exact h
        · exact absurd h hmem
      subst hx
      rw [pairwise_untouched]
      · exact List.getElem?_set_eq_of_lt _ hlt
      · intro b hb hfb
        exact hmem (hinj b (List.mem_cons_of_mem a hb) hfb ▸ hb)

theorem pairwisePass_eq {β : Type} [Zero β] [Add β] [Sub β] [Mul β] [Div β] [NatCast β]
    (d : Nat → β) (n l : Nat) (m s : List β) (c : List β) :
    pairwisePass d n l m s c
      = (List.range (nn n)).foldl
          (fun c ik => c.set (target n ik)
            (pairValue d l m s (forwardMap n ik).1 (forwardMap n ik).2)) c := rfl

theorem pearson_length {β : Type} [Zero β] [Add β] [Sub β] [Mul β] [Div β] [NatCast β]
    (sqrt : β → β) (d : Nat → β) (n l : Nat) :
    (pearson sqrt d n l).length = nn n := by
  unfold pearson
  simp only [pairwisePass_eq]
  rw [pairwise_length, List.length_replicate]

/-- What work item `ik` leaves in the output array. -/
theorem pearson_target {β : Type} [Zero β] [Add β] [Sub β] [Mul β] [Div β] [NatCast β]
    (sqrt : β → β) (d : Nat → β) (n l ik : Nat) (hn : 2 ≤ n)
    (hik : ik < nn n) :
    (pearson sqrt d n l)[target n ik]?
      = some (pairValue d l (momentPass sqrt d n l).1 (momentPass sqrt d n l).2
          (forwardMap n ik).1 (forwardMap n ik).2) := by
  unfold pearson
  simp only [pairwisePass_eq]
  exact pairwise_written (target n)
    (fun ik => pairValue d l (momentPass sqrt d n l).1 (momentPass sqrt d n l).2
      (forwardMap n ik).1 (forwardMap n ik).2) _ _ ik (List.mem_range.mpr hik)
    (by rw [List.length_replicate]; exact target_lt n ik hn hik)
    (fun b hb h => target_inj n b ik hn (List.mem_range.mp hb) hik h)

/-- What the output array holds at the slot of the pair `(i, k)`. -/
theorem pearson_slot {β : Type} [Zero β] [Add β] [Sub β] [Mul β] [Div β] [NatCast β]
    (sqrt : β → β) (d : Nat → β) (n l i k : Nat) (hik : i < k)
    (hk : k < n) :
    (pearson sqrt d n l)[slot n i k]?
      = some (pairValue d l (momentPass sqrt d n l).1 (momentPass sqrt d n l).2 i k) := by
  obtain ⟨ik, h1, h2⟩ := forwardMap_surj n i k hik hk
  have h := pearson_target sqrt d n l ik (by omega) h1
  unfold target at h
  rw [h2] at h
  exact h

/-- Every entry of the output array is the value of some pair. -/
theorem pearson_mem {β : Type} [Zero β] [Add β] [Sub β] [Mul β] [Div β] [NatCast β]
    (sqrt : β → β) (d : Nat → β) (n l : Nat) (hn : 2 ≤ n) (v : β)
    (hv : v ∈ pearson sqrt d n l) :
    ∃ i k, i < k ∧ k < n ∧
      v = pairValue d l (momentPass sqrt d n l).1 (momentPass sqrt d n l).2 i k := by
  obtain ⟨j, hj, hjv⟩ := List.getElem_of_mem hv
  rw [pearson_length] at hj
  obtain ⟨i, k, hik, hk, hs⟩ := slot_surj n hn j hj
  refine ⟨i, k, hik, hk, ?_⟩
  have h := pearson_slot sqrt d n l i k hik hk
  rw [hs, List.getElem?_eq_getElem (by rw [pearson_length]; exact hj)] at h
  rw [← hjv]
  exact Option.some.inj h

theorem pairValue_moment [CharZero α] (sqrt : α → α) (d : Nat → α) (n l i k : Nat)
    (hi : i < n) (hk : k < n) (hl : 1 ≤ l) :
    pairValue d l (momentPass sqrt d n l).1 (momentPass sqrt d n l).2 i k
      = coDev d l i k / stdRef sqrt d l i / stdRef sqrt d l k / ((l : α) - 1) := by
  unfold pairValue
  simp only [momentPass_mean sqrt d n l i hi, momentPass_mean sqrt d n l k hk,
    momentPass_std sqrt d n l i hi, momentPass_std sqrt d n l k hk, pairSum_eq,
    welford_mean, rowStd_eq sqrt d l _ hl, ulPred_of_pos l hl, Nat.cast_sub hl, Nat.cast_one]
  rfl

/-! ## Exact real arithmetic -/

theorem devSq_nonneg (d : Nat → ℝ) (l i : Nat) : 0 ≤ devSq d l i :=
  Finset.sum_nonneg (fun _ _ => sq_nonneg _)

theorem devSq_pos_of_nonConstant (d : Nat → ℝ) (l i : Nat) (h : NonConstant d l i) :
    0 < devSq d l i := by
  obtain ⟨o, ho, o', ho', hne⟩ := h
  rcases (devSq_nonneg d l i).lt_or_eq with hpos | hzero
  · exact hpos
  · exfalso
    have hz := (Finset.sum_eq_zero_iff_of_nonneg (fun _ _ => sq_nonneg _)).mp hzero.symm
    have h1 := hz o (Finset.mem_range.mpr ho)
    have h2 := hz o' (Finset.mem_range.mpr ho')
    simp only [sq_eq_zero_iff, sub_eq_zero] at h1 h2
    exact hne (h1.trans h2.symm)

theorem nonConstant_of_devSq_ne_zero (d : Nat → ℝ) (l i : Nat) (h : devSq d l i ≠ 0) :
    NonConstant d l i := by
  by_contra hc
  apply h
  unfold NonConstant at hc
  push_neg at hc
  rcases Nat.eq_zero_or_pos l with h0 | h0
  · subst h0
    simp [devSq]
  · have hall : ∀ o, o < l → d (i * l + o) = d (i * l + 0) := fun o ho => hc o ho 0 h0
    have hmean : meanRef d l i = d (i * l + 0) := by
      unfold meanRef
      rw [Finset.sum_congr rfl (fun o ho => hall o (Finset.mem_range.mp ho)),
        Finset.sum_const, Finset.card_range, nsmul_eq_mul]
      have hl : (l : ℝ) ≠ 0 := Nat.cast_ne_zero.mpr (by omega)
      field_simp
    unfold devSq
    apply Finset.sum_eq_zero
    intro o ho
    rw [hmean, hall o (Finset.mem_range.mp ho), sub_self]
    norm_num

theorem stdRef_mul (d : Nat → ℝ) (l i k : Nat) (hl : 2 ≤ l) :
    stdRef Real.sqrt d l i * stdRef Real.sqrt d l k
      = Real.sqrt (devSq d l i * devSq d l k) / ((l : ℝ) - 1) := by
  have hL : (0 : ℝ) < (l : ℝ) - 1 := by
    have : (2 : ℝ) ≤ (l : ℝ) := by exact_mod_cast hl
    linarith
  unfold stdRef
  rw [← Real.sqrt_mul (div_nonneg (devSq_nonneg d l i) hL.le)]
  have e : devSq d l i / ((l : ℝ) - 1) * (devSq d l k / ((l : ℝ) - 1))
      = devSq d l i * devSq d l k / ((l : ℝ) - 1) ^ 2 := by
    rw [div_mul_div_comm, ← sq]
  rw [e, Real.sqrt_div (mul_nonneg (devSq_nonneg d l i) (devSq_nonneg d l k)),
    Real.sqrt_sq hL.le]

theorem stdRef_pos (d : Nat → ℝ) (l i : Nat) (hl : 2 ≤ l) (h : NonConstant d l i) :
    0 < stdRef Real.sqrt d l i := by
  have hL : (0 : ℝ) < (l : ℝ) - 1 := by
    have : (2 : ℝ) ≤ (l : ℝ) := by exact_mod_cast hl
    linarith
  exact Real.sqrt_pos.mpr (div_pos (devSq_pos_of_nonConstant d l i h) hL)

/-- The value the pairwise pass computes is the Pearson correlation. -/
theorem pairValue_eq_pearsonRef (d : Nat → ℝ) (n l i k : Nat) (hi : i < n) (hk : k < n)
    (hl : 2 ≤ l) :
    pairValue d l (momentPass Real.sqrt d n l).1 (momentPass Real.sqrt d n l).2 i k
      = pearsonRef Real.sqrt d l i k := by
  have hL : (0 : ℝ) < (l : ℝ) - 1 := by
    have : (2 : ℝ) ≤ (l : ℝ) := by exact_mod_cast hl
    linarith
  rw [pairValue_moment Real.sqrt d n l i k hi hk (by omega),
    div_div (coDev d l i k) (stdRef Real.sqrt d l i), stdRef_mul d l i k hl]
  unfold pearsonRef
  rw [div_div, div_mul_cancel₀ _ hL.ne']

theorem coDev_sq_le (d : Nat → ℝ) (l i k : Nat) :
    coDev d l i k ^ 2 ≤ devSq d l i * devSq d l k :=
  Finset.sum_mul_sq_le_sq_mul_sq _ _ _

theorem pearsonRef_abs_le_one (d : Nat → ℝ) (l i k : Nat) :
    |pearsonRef Real.sqrt d l i k| ≤ 1 := by
  unfold pearsonRef
  rw [abs_div, abs_of_nonneg (Real.sqrt_nonneg _)]
  exact div_le_one_of_le₀ (Real.abs_le_sqrt (coDev_sq_le d l i k)) (Real.sqrt_nonneg _)

theorem affine_mean (d : Nat → ℝ) (l i k : Nat) (a b : ℝ) (hl : 1 ≤ l)
    (h : AffineRow d l i k a b) : meanRef d l k = a * meanRef d l i + b := by
  have hl0 : (l : ℝ) ≠ 0 := Nat.cast_ne_zero.mpr (by omega)
  unfold meanRef
  rw [Finset.sum_congr rfl (fun o ho => h o (Finset.mem_range.mp ho)), Finset.sum_add_distrib,
    ← Finset.mul_sum, Finset.sum_const, Finset.card_range, nsmul_eq_mul]
  field_simp
  ring

theorem affine_dev (d : Nat → ℝ) (l i k : Nat) (a b : ℝ) (hl : 1 ≤ l)
    (h : AffineRow d l i k a b) (o : Nat) (ho : o < l) :
    d (k * l + o) - meanRef d l k = a * (d (i * l + o) - meanRef d l i) := by
  rw [affine_mean d l i k a b hl h, h o ho]
  ring

theorem affine_coDev (d : Nat → ℝ) (l i k : Nat) (a b : ℝ) (hl : 1 ≤ l)
    (h : AffineRow d l i k a b) : coDev d l i k = a * devSq d l i := by
  unfold coDev devSq
  rw [Finset.mul_sum]
  apply Finset.sum_congr rfl
  intro o ho
  rw [affine_dev d l i k a b hl h o (Finset.mem_range.mp ho)]
  ring

theorem affine_devSq (d : Nat → ℝ) (l i k : Nat) (a b : ℝ) (hl : 1 ≤ l)
    (h : AffineRow d l i k a b) : devSq d l k = a ^ 2 * devSq d l i := by
  unfold devSq
  rw [Finset.mul_sum]
  apply Finset.sum_congr rfl
  intro o ho
  rw [affine_dev d l i k a b hl h o (Finset.mem_range.mp ho)]
  ring

theorem affine_pearsonRef (d : Nat → ℝ) (l i k : Nat) (a b : ℝ) (hl : 1 ≤ l)
    (hi : NonConstant d l i) (ha : a ≠ 0) (h : AffineRow d l i k a b) :
    pearsonRef Real.sqrt d l i k = if 0 < a then 1 else -1 := by
  have hD := devSq_pos_of_nonConstant d l i hi
  unfold pearsonRef
  rw [affine_coDev d l i k a b hl h, affine_devSq d l i k a b hl h]
  have e : devSq d l i * (a ^ 2 * devSq d l i) = (|a| * devSq d l i) ^ 2 := by
    rw [mul_pow, sq_abs]
    ring
  rw [e, Real.sqrt_sq (mul_nonneg (abs_nonneg a) hD.le)]
  split_ifs with hpos
  · rw [abs_of_pos hpos]
    exact div_self (mul_pos hpos hD).ne'
  · have hneg : a < 0 := lt_of_le_of_ne (not_lt.mp hpos) ha
    rw [abs_of_neg hneg, neg_mul, div_neg]
    rw [div_self (mul_neg_of_neg_of_pos hneg hD).ne]

/-- Equality in the Cauchy-Schwarz bound forces row `k` to be an affine image of row `i`. -/
theorem affine_of_abs_eq_one (d : Nat → ℝ) (l i k : Nat)
    (hi : NonConstant d l i) (hk : NonConstant d l k)
    (h : |pearsonRef Real.sqrt d l i k| = 1) :
    ∃ a b, a ≠ 0 ∧ AffineRow d l i k a b := by
  have hDi := devSq_pos_of_nonConstant d l i hi
  have hDk := devSq_pos_of_nonConstant d l k hk
  have hprod : 0 < devSq d l i * devSq d l k := mul_pos hDi hDk
  have hsq : coDev d l i k ^ 2 = devSq d l i * devSq d l k := by
    unfold pearsonRef at h
    rw [abs_div, abs_of_nonneg (Real.sqrt_nonneg _),
      div_eq_one_iff_eq (Real.sqrt_pos.mpr hprod).ne'] at h
    rw [← sq_abs, h, Real.sq_sqrt hprod.le]
  have hco : coDev d l i k ≠ 0 := by
    intro h0
    rw [h0] at hsq
    have : devSq d l i * devSq d l k = 0 := by rw [← hsq]; norm_num
    exact hprod.ne' this
  refine ⟨coDev d l i k / devSq d l i,
    meanRef d l k - coDev d l i k / devSq d l i * meanRef d l i,
    div_ne_zero hco hDi.ne', ?_⟩
  have hsum : ∑ o ∈ Finset.range l, ((d (k * l + o) - meanRef d l k)
      - coDev d l i k / devSq d l i * (d (i * l + o) - meanRef d l i)) ^ 2 = 0 := by
    have e : ∀ o, ((d (k * l + o) - meanRef d l k)
        - coDev d l i k / devSq d l i * (d (i * l + o) - meanRef d l i)) ^ 2
        = (d (k * l + o) - meanRef d l k) ^ 2
          - 2 * (coDev d l i k / devSq d l i)
            * ((d (i * l + o) - meanRef d l i) * (d (k * l + o) - meanRef d l k))
          + (coDev d l i k / devSq d l i) ^ 2 * (d (i * l + o) - meanRef d l i) ^ 2 := by
      intro o
      ring
    simp only [e, Finset.sum_add_distrib, Finset.sum_sub_distrib, ← Finset.mul_sum]
    change devSq d l k - 2 * (coDev d l i k / devSq d l i) * coDev d l i k
      + (coDev d l i k / devSq d l i) ^ 2 * devSq d l i = 0
    have ht : coDev d l i k / devSq d l i * devSq d l i = coDev d l i k :=
      div_mul_cancel₀ _ hDi.ne'
    have ht2 : coDev d l i k / devSq d l i * coDev d l i k = devSq d l k := by
      rw [div_mul_eq_mul_div, ← sq, hsq, mul_div_assoc, mul_div_cancel₀ _ hDi.ne']
    linear_combination (coDev d l i k / devSq d l i) * ht - ht2
  have hz := (Finset.sum_eq_zero_iff_of_nonneg (fun _ _ => sq_nonneg _)).mp hsum
  intro o ho
  have h1 := hz o (Finset.mem_range.mpr ho)
  rw [sq_eq_zero_iff] at h1
  linear_combination h1

/-- A row with every observation equal to `c` has computed mean `c`. -/
theorem rowMean_of_constant (d : Nat → ℝ) (l i : Nat) (c : ℝ) (hl : 1 ≤ l)
    (hc : ∀ o, o < l → d (i * l + o) = c) : rowMean d l i = c := by
  rw [welford_mean]
  unfold meanRef
  rw [Finset.sum_congr rfl (fun o ho => hc o (Finset.mem_range.mp ho)), Finset.sum_const,
    Finset.card_range, nsmul_eq_mul]
  have hl0 : (l : ℝ) ≠ 0 := Nat.cast_ne_zero.mpr (by omega)
  field_simp

/-- The computed standard deviation vanishes exactly on the constant rows. -/
theorem rowStd_eq_zero_iff (d : Nat → ℝ) (l i : Nat) (hl : 2 ≤ l) :
    rowStd Real.sqrt d l i = 0 ↔ ¬ NonConstant d l i := by
  rw [rowStd_eq _ d l i (by omega)]
  constructor
  · intro h0 hnc
    exact (stdRef_pos d l i hl hnc).ne' h0
  · intro hconst
    have hz : devSq d l i = 0 := by
      by_contra hne
      exact hconst (nonConstant_of_devSq_ne_zero d l i hne)
    unfold stdRef
    rw [hz, zero_div, Real.sqrt_zero]

theorem not_nonConstant_iff (d : Nat → ℝ) (l i : Nat) :
    ¬ NonConstant d l i ↔ ∀ o, o < l → ∀ o', o' < l → d (i * l + o) = d (i * l + o') := by
  unfold NonConstant
  push_neg
  rfl

/-! ## Arithmetic with NaN and the infinities -/

section DoubleLemmas

variable {F : Type} [LinearOrderedField F]

theorem dbl_zero : (0 : Dbl F) = Dbl.fin 0 := rfl

theorem dbl_natCast (n : Nat) : ((n : Nat) : Dbl F) = Dbl.fin (n : F) := rfl

theorem dbl_fin_add (x y : F) : (Dbl.fin x + Dbl.fin y : Dbl F) = Dbl.fin (x + y) := rfl

theorem dbl_fin_sub (x y : F) : (Dbl.fin x - Dbl.fin y : Dbl F) = Dbl.fin (x - y) := by
  show Dbl.add (Dbl.fin x) (Dbl.neg (Dbl.fin y)) = Dbl.fin (x - y)
  simp only [Dbl.neg, Dbl.add, sub_eq_add_neg]

theorem dbl_fin_mul (x y : F) : (Dbl.fin x * Dbl.fin y : Dbl F) = Dbl.fin (x * y) := rfl

theorem dbl_fin_div (x y : F) (hy : y ≠ 0) : (Dbl.fin x / Dbl.fin y : Dbl F) = Dbl.fin (x / y) := by
  show Dbl.div (Dbl.fin x) (Dbl.fin y) = Dbl.fin (x / y)
  simp only [Dbl.div, if_neg hy]

theorem dbl_zero_div_zero : (Dbl.fin 0 / Dbl.fin 0 : Dbl F) = Dbl.nan := by
  show Dbl.div (Dbl.fin 0) (Dbl.fin 0) = Dbl.nan
  simp only [Dbl.div, if_true]

theorem dbl_add_nan (a : Dbl F) : a + Dbl.nan = Dbl.nan := by
  cases a <;> rfl

theorem dbl_nan_div (a : Dbl F) : Dbl.nan / a = Dbl.nan := rfl

theorem dbl_div_nan (a : Dbl F) : a / Dbl.nan = Dbl.nan := by
  cases a <;> rfl

theorem dbl_sqrt_fin (sq : F → F) (x : F) (hx : 0 ≤ x) :
    Dbl.sqrt sq (Dbl.fin x) = Dbl.fin (sq x) := by
  simp only [Dbl.sqrt, if_neg (not_lt.mpr hx)]

/-- One Welford update on finite doubles is the update on their values. -/
theorem welfordStep_fin (x : Nat → F) (l i k : Nat) (m q : F) :
    welfordStep (finData x) l i (Dbl.fin m, Dbl.fin q) k
      = (Dbl.fin (welfordStep x l i (m, q) k).1, Dbl.fin (welfordStep x l i (m, q) k).2) := by
  have hk : ((k + 1 : Nat) : F) ≠ 0 := Nat.cast_ne_zero.mpr (Nat.succ_ne_zero k)
  simp only [welfordStep, finData, dbl_natCast, dbl_fin_sub, dbl_fin_div _ _ hk, dbl_fin_add,
    dbl_fin_mul]

theorem welford_fold_fin (x : Nat → F) (l i j : Nat) :
    (List.range j).foldl (welfordStep (finData x) l i) (0, 0)
      = (Dbl.fin ((List.range j).foldl (welfordStep x l i) (0, 0)).1,
         Dbl.fin ((List.range j).foldl (welfordStep x l i) (0, 0)).2) := by
  induction j with
  | zero => rfl
  | succ j ih =>
    rw [List.range_succ, List.foldl_append, List.foldl_append, ih]
    simp only [List.foldl_cons, List.foldl_nil]
    exact welfordStep_fin x l i j _ _

theorem welford_fin (x : Nat → F) (l i : Nat) :
    welford (finData x) l i = (Dbl.fin (welford x l i).1, Dbl.fin (welford x l i).2) :=
  welford_fold_fin x l i l

theorem rowMean_fin (x : Nat → F) (l i : Nat) :
    rowMean (finData x) l i = Dbl.fin (rowMean x l i) := by
  unfold rowMean
  rw [welford_fin]

/-- A reduction loop of at least one iteration whose every term is NaN ends with NaN. -/
theorem foldl_add_nan (t : Nat → Dbl F) (l : Nat) (hl : 1 ≤ l) (ht : ∀ o, o < l → t o = Dbl.nan)
    (a : Dbl F) : (List.range l).foldl (fun sum o => sum + t o) a = Dbl.nan := by
  obtain ⟨j, rfl⟩ : ∃ j, l = j + 1 := ⟨l - 1, by omega⟩
  rw [List.range_succ, List.foldl_append]
  simp only [List.foldl_cons, List.foldl_nil]
  rw [ht j (by omega), dbl_add_nan]

/-- A reduction loop whose terms are finite is the loop on their values. -/
theorem foldl_add_fin (t : Nat → Dbl F) (v : Nat → F) (l : Nat)
    (ht : ∀ o, o < l → t o = Dbl.fin (v o)) :
    (List.range l).foldl (fun sum o => sum + t o) 0
      = Dbl.fin ((List.range l).foldl (fun sum o => sum + v o) 0) := by
  induction l with
  | zero => rfl
  | succ j ih =>
    rw [List.range_succ, List.foldl_append, List.foldl_append,
      ih (fun o ho => ht o (by omega))]
    simp only [List.foldl_cons, List.foldl_nil]
    rw [ht j (by omega), dbl_fin_add]

end DoubleLemmas

/-! ## The pairwise pass on finite inputs, with NaN -/

theorem pairValue_rows {β : Type} [Zero β] [Add β] [Sub β] [Mul β] [Div β] [NatCast β]
    (sqrt : β → β) (d : Nat → β) (n l i k : Nat) (hi : i < n) (hk : k < n) :
    pairValue d l (momentPass sqrt d n l).1 (momentPass sqrt d n l).2 i k
      = pairSum d l i k (rowMean d l i) (rowMean d l k) (rowStd sqrt d l i) (rowStd sqrt d l k)
          / ((ulPred l : Nat) : β) := by
  unfold pairValue
  simp only [momentPass_mean sqrt d n l i hi, momentPass_mean sqrt d n l k hk,
    momentPass_std sqrt d n l i hi, momentPass_std sqrt d n l k hk]

theorem rowStd_fin (x : Nat → ℝ) (l i : Nat) (hl : 2 ≤ l) :
    rowStd (Dbl.sqrt Real.sqrt) (finData x) l i = Dbl.fin (rowStd Real.sqrt x l i) := by
  have hL : ((l - 1 : Nat) : ℝ) ≠ 0 := Nat.cast_ne_zero.mpr (by omega)
  unfold rowStd
  rw [welford_fin, ulPred_of_pos l (by omega), dbl_natCast, dbl_fin_div _ _ hL, dbl_sqrt_fin]
  rw [welford_devSq]
  exact div_nonneg (devSq_nonneg x l i) (Nat.cast_nonneg _)

/-- With finite nonzero divisors the reduction loop on doubles is the loop on the values. -/
theorem pairSum_fin (x : Nat → ℝ) (l i k : Nat) (mi mk si sk : ℝ) (hsi : si ≠ 0)
    (hsk : sk ≠ 0) :
    pairSum (finData x) l i k (Dbl.fin mi) (Dbl.fin mk) (Dbl.fin si) (Dbl.fin sk)
      = Dbl.fin (pairSum x l i k mi mk si sk) := by
  unfold pairSum
  exact foldl_add_fin _ (fun o => (x (i * l + o) - mi) * (x (k * l + o) - mk) / si / sk) l
    (fun o _ => by
      simp only [finData, dbl_fin_sub, dbl_fin_mul, dbl_fin_div _ _ hsi, dbl_fin_div _ _ hsk])

/-- With `s[i] = 0` and row `i` equal to its mean, every term is `0 / 0`: the sum is NaN. -/
theorem pairSum_nan_left (x : Nat → ℝ) (l i k : Nat) (mi mk : ℝ) (sk : Dbl ℝ) (hl : 1 ≤ l)
    (hrow : ∀ o, o < l → x (i * l + o) = mi) :
    pairSum (finData x) l i k (Dbl.fin mi) (Dbl.fin mk) (Dbl.fin 0) sk = Dbl.nan := by
  unfold pairSum
  refine foldl_add_nan _ l hl (fun o ho => ?_) 0
  simp only [finData, dbl_fin_sub, dbl_fin_mul, hrow o ho, sub_self, zero_mul,
    dbl_zero_div_zero, dbl_nan_div]

/-- With `s[k] = 0`, row `k` equal to its mean and `s[i]` finite and nonzero, every term is
`0 / 0`: the sum is NaN. -/
theorem pairSum_nan_right (x : Nat → ℝ) (l i k : Nat) (mi mk si : ℝ) (hl : 1 ≤ l)
    (hsi : si ≠ 0) (hrow : ∀ o, o < l → x (k * l + o) = mk) :
    pairSum (finData x) l i k (Dbl.fin mi) (Dbl.fin mk) (Dbl.fin si) (Dbl.fin 0) = Dbl.nan := by
  unfold pairSum
  refine foldl_add_nan _ l hl (fun o ho => ?_) 0
  simp only [finData, dbl_fin_sub, dbl_fin_mul, hrow o ho, sub_self, mul_zero,
    dbl_fin_div _ _ hsi, zero_div, dbl_zero_div_zero]

/-- A constant row equals its computed mean at every observation. -/
theorem constant_row_eq_mean (x : Nat → ℝ) (l i : Nat) (hl : 1 ≤ l) (h : ¬ NonConstant x l i) :
    ∀ o, o < l → x (i * l + o) = rowMean x l i := by
  have hall := (not_nonConstant_iff x l i).mp h
  have hm : rowMean x l i = x (i * l + 0) :=
    rowMean_of_constant x l i _ hl (fun o ho => hall o ho 0 (by omega))
  intro o ho
  rw [hm]
  exact hall o ho 0 (by omega)

/-- The value of a pair that involves a constant row is NaN. -/
theorem pairValue_nan_of_constant (x : Nat → ℝ) (n l i k : Nat) (hi : i < n) (hk : k < n)
    (hl : 2 ≤ l) (h : ¬ NonConstant x l i ∨ ¬ NonConstant x l k) :
    pairValue (finData x) l (momentPass (Dbl.sqrt Real.sqrt) (finData x) n l).1
      (momentPass (Dbl.sqrt Real.sqrt) (finData x) n l).2 i k = Dbl.nan := by
  rw [pairValue_rows _ _ n l i k hi hk, rowMean_fin, rowMean_fin, rowStd_fin x l i hl,
    rowStd_fin x l k hl]
  by_cases hci : NonConstant x l i
  · have hck : ¬ NonConstant x l k := h.resolve_left (fun hn => hn hci)
    have hsi : rowStd Real.sqrt x l i ≠ 0 := fun h0 => (rowStd_eq_zero_iff x l i hl).mp h0 hci
    rw [(rowStd_eq_zero_iff x l k hl).mpr hck,
      pairSum_nan_right x l i k _ _ _ (by omega) hsi (constant_row_eq_mean x l k (by omega) hck)]
    rfl
  · rw [(rowStd_eq_zero_iff x l i hl).mpr hci,
      pairSum_nan_left x l i k _ _ _ (by omega) (constant_row_eq_mean x l i (by omega) hci)]
    rfl

/-- The value of a pair of non-constant rows is finite: the value in exact arithmetic. -/
theorem pairValue_fin_of_nonConstant (x : Nat → ℝ) (n l i k : Nat) (hi : i < n) (hk : k < n)
    (hl : 2 ≤ l) (hci : NonConstant x l i) (hck : NonConstant x l k) :
    pairValue (finData x) l (momentPass (Dbl.sqrt Real.sqrt) (finData x) n l).1
      (momentPass (Dbl.sqrt Real.sqrt) (finData x) n l).2 i k
      = Dbl.fin (pearsonRef Real.sqrt x l i k) := by
  have hL : ((l - 1 : Nat) : ℝ) ≠ 0 := Nat.cast_ne_zero.mpr (by omega)
  have hsi : rowStd Real.sqrt x l i ≠ 0 := fun h0 => (rowStd_eq_zero_iff x l i hl).mp h0 hci
  have hsk : rowStd Real.sqrt x l k ≠ 0 := fun h0 => (rowStd_eq_zero_iff x l k hl).mp h0 hck
  rw [pairValue_rows _ _ n l i k hi hk, rowMean_fin, rowMean_fin, rowStd_fin x l i hl,
    rowStd_fin x l k hl, pairSum_fin x l i k _ _ _ _ hsi hsk, ulPred_of_pos l (by omega),
    dbl_natCast, dbl_fin_div _ _ hL, ← pairValue_eq_pearsonRef x n l i k hi hk hl,
    pairValue_rows _ _ n l i k hi hk, ulPred_of_pos l (by omega)]

/-- With one observation per row the standard deviation of the moment pass is NaN. -/
theorem rowStd_single (x : Nat → ℝ) (i : Nat) :
    welford (finData x) 1 i = (Dbl.fin (x (i * 1 + 0)), Dbl.fin 0) ∧
    rowStd (Dbl.sqrt Real.sqrt) (finData x) 1 i = Dbl.nan := by
  have hw : welford x 1 i = (x (i * 1 + 0), 0) := by
    simp [welford, welfordStep, List.range_succ]
  have hwd : welford (finData x) 1 i = (Dbl.fin (x (i * 1 + 0)), Dbl.fin 0) := by
    rw [welford_fin, hw]
  refine ⟨hwd, ?_⟩
  unfold rowStd
  have h0 : ulPred 1 = 0 := rfl
  rw [hwd, h0, dbl_natCast, Nat.cast_zero, dbl_zero_div_zero]
  rfl

/-- With one observation per row the value of every pair is NaN. -/
theorem pairValue_single (x : Nat → ℝ) (n i k : Nat) (hi : i < n) (hk : k < n) :
    pairValue (finData x) 1 (momentPass (Dbl.sqrt Real.sqrt) (finData x) n 1).1
      (momentPass (Dbl.sqrt Real.sqrt) (finData x) n 1).2 i k = Dbl.nan := by
  rw [pairValue_rows _ _ n 1 i k hi hk, (rowStd_single x i).2]
  have hs : pairSum (finData x) 1 i k (rowMean (finData x) 1 i) (rowMean (finData x) 1 k)
      Dbl.nan (rowStd (Dbl.sqrt Real.sqrt) (finData x) 1 k) = Dbl.nan := by
    unfold pairSum
    refine foldl_add_nan _ 1 (le_refl 1) (fun o _ => ?_) 0
    rw [dbl_div_nan, dbl_nan_div]
  rw [hs, dbl_nan_div]

/-- With no observation the value of every pair is `0`, for any moment arrays. -/
theorem pairValue_empty (d : Nat → Dbl ℝ) (m s : List (Dbl ℝ)) (i k : Nat) :
    pairValue d 0 m s i k = Dbl.fin 0 := by
  have h0 : ((ulPred 0 : Nat) : ℝ) ≠ 0 := by
    unfold ulPred
    norm_num
  have hs : ∀ mi mk si sk : Dbl ℝ, pairSum d 0 i k mi mk si sk = Dbl.fin 0 := fun _ _ _ _ => rfl
  show pairSum d 0 i k (m.getD i 0) (m.getD k 0) (s.getD i 0) (s.getD k 0)
      / ((ulPred 0 : Nat) : Dbl ℝ) = Dbl.fin 0
  rw [hs, dbl_natCast, dbl_fin_div _ _ h0, zero_div]

theorem pairwise_fold_replicate {β : Type} (f : Nat → Nat) (a : β) (N : Nat) (xs : List Nat) :
    xs.foldl (fun c ik => c.set (f ik) a) (List.replicate N a) = List.replicate N a := by
  induction xs with
  | nil => rfl
  | cons y ys ih => rw [List.foldl_cons, List.set_replicate_self, ih]

theorem list_of_three {β : Type} (xs : List β) (a b c : β) (hlen : xs.length = 3)
    (h0 : xs[0]? = some a) (h1 : xs[1]? = some b) (h2 : xs[2]? = some c) : xs = [a, b, c] := by
  match xs, hlen, h0, h1, h2 with
  | [u, v, w], _, h0, h1, h2 =>
    simp only [List.getElem?_cons_zero, List.getElem?_cons_succ, Option.some.injEq] at h0 h1 h2
    rw [h0, h1, h2]

/-! ## The pairwise pass on several threads -/

/-- Three consecutive steps of a work item that has not started are one iteration of the
sequential pairwise pass. -/
theorem raceStep_three (d : Nat → α) (n l : Nat) (m s : List α) (st : Shared α) (ik : Nat)
    (h : st.pc ik = 0) :
    (raceStep d n l m s (raceStep d n l m s (raceStep d n l m s st ik) ik) ik).out
        = pairwiseStep d n l m s st.out ik ∧
    ∀ j, j ≠ ik →
      (raceStep d n l m s (raceStep d n l m s (raceStep d n l m s st ik) ik) ik).pc j
        = st.pc j := by
  constructor
  · simp [raceStep, h, pairwiseStep, pairValue]
  · intro j hj
    simp [raceStep, h, hj]

theorem raceRun_initial (d : Nat → α) (n l : Nat) (m s : List α) (buf : List α) (j : Nat) :
    (((List.range j).flatMap (fun ik => [ik, ik, ik])).foldl (raceStep d n l m s)
        ⟨0, buf, fun _ => 0⟩).out
      = (List.range j).foldl (pairwiseStep d n l m s) buf ∧
    ∀ i, j ≤ i →
      (((List.range j).flatMap (fun ik => [ik, ik, ik])).foldl (raceStep d n l m s)
        ⟨0, buf, fun _ => 0⟩).pc i = 0 := by
  induction j with
  | zero => exact ⟨rfl, fun _ _ => rfl⟩
  | succ j ih =>
    obtain ⟨ih1, ih2⟩ := ih
    rw [List.range_succ, List.flatMap_append, List.foldl_append, List.foldl_append]
    simp only [List.flatMap_cons, List.flatMap_nil, List.append_nil, List.foldl_cons,
      List.foldl_nil]
    obtain ⟨h1, h2⟩ := raceStep_three d n l m s _ j (ih2 j (le_refl j))
    refine ⟨by rw [h1, ih1], fun i hi => ?_⟩
    rw [h2 i (by omega)]
    exact ih2 i (by omega)

/-- Without interleaving the model is the sequential pairwise pass. -/
theorem raceRun_sequential (d : Nat → α) (n l : Nat) (m s : List α) (buf : List α) :
    (raceRun d n l m s (sequentialSchedule n) buf).out = pairwisePass d n l m s buf :=
  (raceRun_initial d n l m s buf (nn n)).1

theorem raceRows_affine : AffineRow (raceRows : Nat → ℝ) 3 1 2 (-1 / 2) 4 := by
  intro o ho
  interval_cases o <;> norm_num [raceRows]

/-! ## The run without interleaving

The theorems of this section are about `pearson`, the run in which the work items of the
pairwise pass take their steps one after another (as on one thread). They do not hold for
every schedule of `raceRun`: see the theorems on the shared `sum` among the claims. -/

/-- Without interleaving of the work items: for `l ≥ 2` observations and rows `i < k < n` (so
`n ≥ 2`) that are both non-constant, the array `pearson` returns has exactly
`nn = n * (n - 1) / 2` entries, every divisor it uses for the pair (`s[i]`, `s[k]` and the
reference denominator) is nonzero, and the entry at index `nn - (n-i)*(n-i-1)/2 + k - i - 1`
is the Pearson correlation of rows `i` and `k`: `Σ (x[i,o] - mean_i) * (x[k,o] - mean_k)` over
`sqrt (Σ (x[i,o] - mean_i)^2 * Σ (x[k,o] - mean_k)^2)`, in exact real arithmetic. -/
theorem sequential_stores_correlation (d : Nat → ℝ) (n l i k : Nat) (hl : 2 ≤ l)
    (hik : i < k) (hkn : k < n) (hi : NonConstant d l i) (hk : NonConstant d l k) :
    (pearson Real.sqrt d n l).length = n * (n - 1) / 2 ∧
    (momentPass Real.sqrt d n l).2.getD i 0 ≠ 0 ∧
    (momentPass Real.sqrt d n l).2.getD k 0 ≠ 0 ∧
    0 < Real.sqrt ((∑ o ∈ Finset.range l, (d (i * l + o) - meanRef d l i) ^ 2)
          * ∑ o ∈ Finset.range l, (d (k * l + o) - meanRef d l k) ^ 2) ∧
    (pearson Real.sqrt d n l)[n * (n - 1) / 2 - (n - i) * (n - i - 1) / 2 + k - i - 1]?
      = some ((∑ o ∈ Finset.range l,
                (d (i * l + o) - meanRef d l i) * (d (k * l + o) - meanRef d l k))
          / Real.sqrt ((∑ o ∈ Finset.range l, (d (i * l + o) - meanRef d l i) ^ 2)
              * ∑ o ∈ Finset.range l, (d (k * l + o) - meanRef d l k) ^ 2)) := by
  have hin : i < n := by omega
  refine ⟨pearson_length _ d n l, ?_, ?_, ?_, ?_⟩
  · rw [momentPass_std _ d n l i hin, rowStd_eq _ d l i (by omega)]
    exact (stdRef_pos d l i hl hi).ne'
  · rw [momentPass_std _ d n l k hkn, rowStd_eq _ d l k (by omega)]
    exact (stdRef_pos d l k hl hk).ne'
  · exact Real.sqrt_pos.mpr
      (mul_pos (devSq_pos_of_nonConstant d l i hi) (devSq_pos_of_nonConstant d l k hk))
  · have h := pearson_slot Real.sqrt d n l i k hik hkn
    rw [pairValue_eq_pearsonRef d n l i k hin hkn hl] at h
    exact h

/-- Without interleaving of the work items: for `n ≥ 2`, `l ≥ 2` and no row of zero variance,
no divisor `s[i]` of the pairwise pass is zero and every value in the output of `pearson` lies
in `[-1, 1]` (exact real arithmetic). -/
theorem sequential_output_in_unit_interval (d : Nat → ℝ) (n l : Nat) (hn : 2 ≤ n) (hl : 2 ≤ l)
    (hvar : ∀ i, i < n →
      (∑ o ∈ Finset.range l, (d (i * l + o) - meanRef d l i) ^ 2) / ((l : ℝ) - 1) ≠ 0) :
    (∀ i, i < n → (momentPass Real.sqrt d n l).2.getD i 0 ≠ 0) ∧
    (∀ v, v ∈ pearson Real.sqrt d n l → -1 ≤ v ∧ v ≤ 1) := by
  constructor
  · intro i hi
    rw [momentPass_std _ d n l i hi, rowStd_eq _ d l i (by omega)]
    have hne : devSq d l i ≠ 0 := fun h0 => hvar i hi (by
      change devSq d l i / ((l : ℝ) - 1) = 0
      rw [h0, zero_div])
    exact (stdRef_pos d l i hl (nonConstant_of_devSq_ne_zero d l i hne)).ne'
  · intro v hv
    obtain ⟨i, k, hik, hk, rfl⟩ := pearson_mem Real.sqrt d n l hn v hv
    rw [pairValue_eq_pearsonRef d n l i k (by omega) hk hl]
    exact abs_le.mp (pearsonRef_abs_le_one d l i k)

/-- Without interleaving of the work items: for `l ≥ 2`, a non-constant row `i` and a row `k`
equal to `a * x + b` elementwise with `a ≠ 0`, the value the pairwise pass computes for
`(i, k)` is exactly `1` when `a > 0` and exactly `-1` when `a < 0`, and for `i < k` that is the
entry stored at the slot of `(i, k)`. For `n = 2`, `l = 3` the rows `[1,2,3]`, `[2,4,6]` give
the one-element output `[1]` and the rows `[1,2,3]`, `[3,2,1]` give `[-1]` (exact real
arithmetic). -/
theorem sequential_affine_rows :
    (∀ (d : Nat → ℝ) (n l i k : Nat) (a b : ℝ), 2 ≤ l → i < n → k < n → NonConstant d l i →
      a ≠ 0 → (∀ o, o < l → d (k * l + o) = a * d (i * l + o) + b) →
      pairValue d l (momentPass Real.sqrt d n l).1 (momentPass Real.sqrt d n l).2 i k
          = (if 0 < a then 1 else -1) ∧
      (i < k → (pearson Real.sqrt d n l)[slot n i k]? = some (if 0 < a then 1 else -1))) ∧
    pearson Real.sqrt (sampleRows [1, 2, 3, 2, 4, 6]) 2 3 = [1] ∧
    pearson Real.sqrt (sampleRows [1, 2, 3, 3, 2, 1]) 2 3 = [-1] := by
  have gen : ∀ (d : Nat → ℝ) (n l i k : Nat) (a b : ℝ), 2 ≤ l → i < n → k < n →
      NonConstant d l i → a ≠ 0 → (∀ o, o < l → d (k * l + o) = a * d (i * l + o) + b) →
      pairValue d l (momentPass Real.sqrt d n l).1 (momentPass Real.sqrt d n l).2 i k
          = (if 0 < a then 1 else -1) ∧
      (i < k → (pearson Real.sqrt d n l)[slot n i k]? = some (if 0 < a then 1 else -1)) := by
    intro d n l i k a b hl hi hk hnc ha haff
    have hv : pairValue d l (momentPass Real.sqrt d n l).1 (momentPass Real.sqrt d n l).2 i k
        = (if 0 < a then 1 else -1) := by
      rw [pairValue_eq_pearsonRef d n l i k hi hk hl]
      exact affine_pearsonRef d l i k a b (by omega) hnc ha haff
    refine ⟨hv, fun hik => ?_⟩
    rw [pearson_slot Real.sqrt d n l i k hik hk, hv]
  have single : ∀ (d : Nat → ℝ) (v : ℝ), (pearson Real.sqrt d 2 3)[slot 2 0 1]? = some v →
      pearson Real.sqrt d 2 3 = [v] := by
    intro d v h
    have hlen : (pearson Real.sqrt d 2 3).length = 1 := pearson_length Real.sqrt d 2 3
    have h0 : slot 2 0 1 = 0 := by decide
    rw [h0] at h
    match hp : pearson Real.sqrt d 2 3, hlen, h with
    | [x], _, h =>
      simp only [List.getElem?_cons_zero, Option.some.injEq] at h
      rw [h]
  refine ⟨gen, single _ 1 ?_, single _ (-1) ?_⟩
  · have h := (gen (sampleRows [1, 2, 3, 2, 4, 6]) 2 3 0 1 2 0 (by omega) (by omega) (by omega)
      ⟨0, by omega, 1, by omega, by norm_num [sampleRows]⟩ (by norm_num)
      (by
        intro o ho
        interval_cases o <;> norm_num [sampleRows])).2 (by omega)
    rw [if_pos (by norm_num)] at h
    exact h
  · have h := (gen (sampleRows [1, 2, 3, 3, 2, 1]) 2 3 0 1 (-1) 4 (by omega) (by omega) (by omega)
      ⟨0, by omega, 1, by omega, by norm_num [sampleRows]⟩ (by norm_num)
      (by
        intro o ho
        interval_cases o <;> norm_num [sampleRows])).2 (by omega)
    rw [if_neg (by norm_num)] at h
    exact h

/-- Without interleaving of the work items: for `l ≥ 2` and two non-constant rows `i < k < n`,
the correlation `pearson` stores for the pair has absolute value `1` if and only if there are
`a ≠ 0` and `b` with `x[k,o] = a * x[i,o] + b` for every observation `o` (exact real
arithmetic). -/
theorem sequential_abs_one_iff_affine (d : Nat → ℝ) (n l i k : Nat) (hl : 2 ≤ l)
    (hik : i < k) (hkn : k < n) (hi : NonConstant d l i) (hk : NonConstant d l k) :
    |(pearson Real.sqrt d n l).getD (slot n i k) 0| = 1 ↔
      ∃ a b, a ≠ 0 ∧ ∀ o, o < l → d (k * l + o) = a * d (i * l + o) + b := by
  have hin : i < n := by omega
  have hval : (pearson Real.sqrt d n l).getD (slot n i k) 0 = pearsonRef Real.sqrt d l i k := by
    rw [List.getD_eq_getElem?_getD, pearson_slot Real.sqrt d n l i k hik hkn,
      pairValue_eq_pearsonRef d n l i k hin hkn hl]
    rfl
  rw [hval]
  constructor
  · intro h
    exact affine_of_abs_eq_one d l i k hi hk h
  · rintro ⟨a, b, ha, haff⟩
    rw [affine_pearsonRef d l i k a b (by omega) hi ha haff]
    split_ifs <;> norm_num

/-! ## Interleaved runs in exact real arithmetic -/

/-- The value the pairwise pass computes for a pair of rows in affine relation. -/
theorem pairValue_of_affine (d : Nat → ℝ) (n l i k : Nat) (a b : ℝ) (hl : 2 ≤ l) (hi : i < n)
    (hk : k < n) (hnc : NonConstant d l i) (ha : a ≠ 0) (haff : AffineRow d l i k a b) :
    pairValue d l (momentPass Real.sqrt d n l).1 (momentPass Real.sqrt d n l).2 i k
      = if 0 < a then 1 else -1 := by
  rw [pairValue_eq_pearsonRef d n l i k hi hk hl]
  exact affine_pearsonRef d l i k a b (by omega) hnc ha haff

theorem forwardMap_three : forwardMap 3 0 = (1, 2) ∧ forwardMap 3 1 = (0, 1) ∧
    forwardMap 3 2 = (0, 2) := by
  decide

theorem slot_three : slot 3 1 2 = 2 ∧ slot 3 0 1 = 0 ∧ slot 3 0 2 = 1 ∧ nn 3 = 3 := by
  decide

/-! ## Binary64 rounding on known values -/

/-- The rounding on values whose binary64 image is known: `0.1`; ties go to the even
neighbour; the largest double `2^1024 - 2^971` and the overflow threshold `2^1024 - 2^970`; the
smallest positive double `2^-1074` and the underflow to zero at half of it; and the square
roots of `2`, of `1/4` and of `2^-1074`. -/
theorem round64_samples :
    round64 (1 / 10) = Dbl.fin (3602879701896397 / 2 ^ 55) ∧
    round64 (2 ^ 53 + 1) = Dbl.fin (2 ^ 53) ∧
    round64 (2 ^ 53 + 3) = Dbl.fin (2 ^ 53 + 4) ∧
    round64 (-(2 ^ 53 + 3)) = Dbl.fin (-(2 ^ 53 + 4)) ∧
    round64 (2 ^ 1024 - 2 ^ 971) = Dbl.fin (2 ^ 1024 - 2 ^ 971) ∧
    round64 (2 ^ 1024 - 2 ^ 970) = Dbl.inf false ∧
    round64 (-(2 ^ 1024)) = Dbl.inf true ∧
    round64 (1 / 2 ^ 1074) = Dbl.fin (1 / 2 ^ 1074) ∧
    round64 (1 / 2 ^ 1075) = Dbl.fin 0 ∧
    round64 (3 / 2 ^ 1075) = Dbl.fin (2 / 2 ^ 1074) ∧
    sqrt64 2 = Dbl.fin (6369051672525773 / 2 ^ 52) ∧
    sqrt64 (1 / 4) = Dbl.fin (1 / 2) ∧
    sqrt64 (1 / 2 ^ 1074) = Dbl.fin (1 / 2 ^ 537) := by
  decide!

/-! ## Binary64 arithmetic around zero and NaN -/

theorem pow2_eq (e : Int) : pow2 e = (2 : ℚ) ^ e := by
  unfold pow2
  split_ifs with h
  · obtain ⟨k, rfl⟩ := Int.eq_ofNat_of_zero_le h
    simp
  · obtain ⟨k, hk⟩ := Int.eq_ofNat_of_zero_le (show 0 ≤ -e by omega)
    have he : e = -(k : Int) := by omega
    subst he
    simp

theorem pow2_pos (e : Int) : 0 < pow2 e := by
  rw [pow2_eq]
  positivity

theorem pow2_mono {a b : Int} (h : a ≤ b) : pow2 a ≤ pow2 b := by
  rw [pow2_eq, pow2_eq]
  exact zpow_le_zpow_right₀ (by norm_num) h

theorem log2Loop_le (b n r : Nat) (h : 2 ^ r ≤ n) : 2 ^ log2Loop b n r ≤ n := by
  induction b generalizing r with
  | zero => exact h
  | succ b ih =>
    unfold log2Loop
    split_ifs with h2
    · exact ih _ h2
    · exact ih _ h

theorem log2_le (n : Nat) (hn : 1 ≤ n) : 2 ^ log2 n ≤ n :=
  log2Loop_le 12 n 0 (by simpa using hn)

theorem roundEven_pos (t : ℚ) (ht : 1 ≤ t) : 1 ≤ roundEven t := by
  have hf : (1 : Int) ≤ ⌊t⌋ := Int.le_floor.mpr (by simpa using ht)
  unfold roundEven
  simp only
  split_ifs <;> omega

theorem round64_zero : round64 0 = Dbl.fin 0 := by
  simp [round64]

theorem round64_ne_nan (q : ℚ) : round64 q ≠ Dbl.nan := by
  unfold round64
  simp only
  split_ifs <;> simp

/-- The conversion of a positive `unsigned long` is not zero. -/
theorem round64_natCast_ne_zero (n : Nat) (hn : 1 ≤ n) : round64 (n : ℚ) ≠ Dbl.fin 0 := by
  have hq : (0 : ℚ) < n := by exact_mod_cast hn
  have h1 : (1 : ℚ) ≤ n := by exact_mod_cast hn
  have hfl : floorLog2 (n : ℚ) = (log2 n : Int) := by
    unfold floorLog2
    have hlog1 : log2 1 = 0 := by decide!
    simp only [Rat.num_natCast, Int.natAbs_ofNat, Rat.den_natCast, hlog1, Nat.cast_zero, sub_zero]
    rw [if_pos]
    rw [pow2_eq, zpow_natCast]
    exact_mod_cast log2_le n hn
  have hulp : pow2 (max (floorLog2 (n : ℚ)) (-1022) - 52) ≤ (n : ℚ) := by
    rcases le_total (floorLog2 (n : ℚ)) (-1022) with hm | hm
    · rw [max_eq_right hm]
      calc pow2 (-1022 - 52) ≤ pow2 0 := pow2_mono (by norm_num)
        _ = 1 := by simp [pow2]
        _ ≤ n := h1
    · rw [max_eq_left hm, hfl]
      calc pow2 ((log2 n : Int) - 52) ≤ pow2 (log2 n : Int) := pow2_mono (by omega)
        _ = ((2 ^ log2 n : Nat) : ℚ) := by rw [pow2_eq, zpow_natCast]; norm_cast
        _ ≤ n := by exact_mod_cast log2_le n hn
  unfold round64
  simp only [abs_of_pos hq, hq.ne', if_false, not_lt.mpr hq.le]
  split_ifs with hov
  · simp
  · intro h
    have hv := Dbl.fin.inj h
    have hp := pow2_pos (max (floorLog2 (n : ℚ)) (-1022) - 52)
    have hr := roundEven_pos ((n : ℚ) / pow2 (max (floorLog2 (n : ℚ)) (-1022) - 52))
      ((one_le_div hp).mpr hulp)
    rcases mul_eq_zero.mp hv with h0 | h0
    · have : (1 : ℚ) ≤ (roundEven ((n : ℚ) / pow2 (max (floorLog2 (n : ℚ)) (-1022) - 52)) : ℚ) := by
        exact_mod_cast hr
      linarith
    · exact hp.ne' h0

theorem b64_zero : (0 : B64) = ⟨Dbl.fin 0⟩ := rfl

theorem b64_natCast (n : Nat) : ((n : Nat) : B64) = ⟨round64 (n : ℚ)⟩ := rfl

theorem b64_fin_add (x y : ℚ) : (⟨Dbl.fin x⟩ + ⟨Dbl.fin y⟩ : B64) = ⟨round64 (x + y)⟩ := rfl

theorem b64_fin_sub (x y : ℚ) : (⟨Dbl.fin x⟩ - ⟨Dbl.fin y⟩ : B64) = ⟨round64 (x - y)⟩ := rfl

theorem b64_fin_mul (x y : ℚ) : (⟨Dbl.fin x⟩ * ⟨Dbl.fin y⟩ : B64) = ⟨round64 (x * y)⟩ := rfl

theorem b64_fin_div (x y : ℚ) (hy : y ≠ 0) :
    (⟨Dbl.fin x⟩ / ⟨Dbl.fin y⟩ : B64) = ⟨round64 (x / y)⟩ := by
  show B64.div _ _ = _
  simp [B64.div, hy]

theorem b64_zero_div_zero : (⟨Dbl.fin 0⟩ / ⟨Dbl.fin 0⟩ : B64) = ⟨Dbl.nan⟩ := by
  show B64.div _ _ = _
  simp [B64.div, Dbl.div]

theorem b64_nan_div (a : B64) : (⟨Dbl.nan⟩ / a : B64) = ⟨Dbl.nan⟩ := by
  show B64.div _ _ = _
  obtain ⟨v⟩ := a
  cases v <;> rfl

theorem b64_add_nan (a : B64) : (a + ⟨Dbl.nan⟩ : B64) = ⟨Dbl.nan⟩ := by
  show B64.add _ _ = _
  obtain ⟨v⟩ := a
  cases v <;> rfl

/-- Zero over a double that is neither zero nor NaN is zero. -/
theorem b64_zero_div (a : B64) (h0 : a.val ≠ Dbl.fin 0) (hn : a.val ≠ Dbl.nan) :
    (⟨Dbl.fin 0⟩ / a : B64) = ⟨Dbl.fin 0⟩ := by
  show B64.div _ _ = _
  obtain ⟨v⟩ := a
  cases v with
  | fin y =>
    have hy : y ≠ 0 := fun h => h0 (by simp [h])
    simp [B64.div, hy, round64_zero]
  | inf s => rfl
  | nan => exact absurd rfl hn

/-- Zero over the conversion of a positive `unsigned long` is zero. -/
theorem b64_zero_div_natCast (n : Nat) (hn : 1 ≤ n) :
    (⟨Dbl.fin 0⟩ / ((n : Nat) : B64) : B64) = ⟨Dbl.fin 0⟩ :=
  b64_zero_div ⟨round64 (n : ℚ)⟩ (round64_natCast_ne_zero n hn) (round64_ne_nan _)

/-- Zero over any double is zero or NaN. -/
theorem b64_zero_div_cases (a : B64) :
    (⟨Dbl.fin 0⟩ / a : B64) = ⟨Dbl.fin 0⟩ ∨ (⟨Dbl.fin 0⟩ / a : B64) = ⟨Dbl.nan⟩ := by
  obtain ⟨v⟩ := a
  cases v with
  | fin y =>
    by_cases hy : y = 0
    · right
      rw [hy]
      exact b64_zero_div_zero
    · left
      exact b64_zero_div ⟨Dbl.fin y⟩ (by simpa using hy) (by simp)
  | inf s => exact Or.inl rfl
  | nan => exact Or.inr rfl

/-- Any double times zero is zero or NaN. -/
theorem b64_mul_zero_cases (a : B64) :
    (a * ⟨Dbl.fin 0⟩ : B64) = ⟨Dbl.fin 0⟩ ∨ (a * ⟨Dbl.fin 0⟩ : B64) = ⟨Dbl.nan⟩ := by
  obtain ⟨v⟩ := a
  cases v with
  | fin y =>
    left
    rw [b64_fin_mul, mul_zero, round64_zero]
  | inf s =>
    right
    show B64.mul _ _ = _
    simp [B64.mul, Dbl.mul]
  | nan => exact Or.inr rfl

/-- Zero times any double is zero or NaN. -/
theorem b64_zero_mul_cases (a : B64) :
    (⟨Dbl.fin 0⟩ * a : B64) = ⟨Dbl.fin 0⟩ ∨ (⟨Dbl.fin 0⟩ * a : B64) = ⟨Dbl.nan⟩ := by
  obtain ⟨v⟩ := a
  cases v with
  | fin y =>
    left
    rw [b64_fin_mul, zero_mul, round64_zero]
  | inf s =>
    right
    show B64.mul _ _ = _
    simp [B64.mul, Dbl.mul]
  | nan => exact Or.inr rfl

/-- A term of the reduction loop whose second factor is zero, over a zero `sk`, is NaN. -/
theorem b64_term_right (a si : B64) :
    (a * ⟨Dbl.fin 0⟩ / si / ⟨Dbl.fin 0⟩ : B64) = ⟨Dbl.nan⟩ := by
  rcases b64_mul_zero_cases a with h | h
  · rw [h]
    rcases b64_zero_div_cases si with h2 | h2
    · rw [h2, b64_zero_div_zero]
    · rw [h2, b64_nan_div]
  · rw [h, b64_nan_div, b64_nan_div]

/-- A term of the reduction loop whose first factor is zero, over a zero `si`, is NaN. -/
theorem b64_term_left (a sk : B64) :
    (⟨Dbl.fin 0⟩ * a / ⟨Dbl.fin 0⟩ / sk : B64) = ⟨Dbl.nan⟩ := by
  rcases b64_zero_mul_cases a with h | h
  · rw [h, b64_zero_div_zero, b64_nan_div]
  · rw [h, b64_nan_div, b64_nan_div]

/-- The Welford loop on a row all of whose entries are the double `v`: the mean is `v` and the
sum of squared deviations is `0`, without any rounding error. -/
theorem welford_b64_constant (d : Nat → B64) (l i : Nat) (v : ℚ) (hl : 1 ≤ l)
    (hv : round64 v = Dbl.fin v) (hrow : ∀ o, o < l → d (i * l + o) = ⟨Dbl.fin v⟩) :
    welford d l i = (⟨Dbl.fin v⟩, ⟨Dbl.fin 0⟩) := by
  have key : ∀ j, j + 1 ≤ l →
      (List.range (j + 1)).foldl (welfordStep d l i) (0, 0) = (⟨Dbl.fin v⟩, ⟨Dbl.fin 0⟩) := by
    intro j
    induction j with
    | zero =>
      intro hj
      have h1 : round64 ((1 : Nat) : ℚ) = Dbl.fin 1 := by decide!
      simp only [List.range_succ, List.range_zero, List.nil_append, List.foldl_cons,
        List.foldl_nil, welfordStep, hrow 0 (by omega), b64_zero, b64_fin_sub, sub_zero, hv,
        zero_add, b64_natCast, h1]
      rw [b64_fin_div v 1 one_ne_zero, div_one, hv, b64_fin_add, zero_add, hv, b64_fin_sub,
        sub_self, round64_zero, b64_fin_mul, mul_zero, round64_zero, b64_fin_add, zero_add,
        round64_zero]
    | succ j ih =>
      intro hj
      rw [List.range_succ, List.foldl_append, ih (by omega)]
      simp only [List.foldl_cons, List.foldl_nil, welfordStep, hrow (j + 1) (by omega),
        b64_fin_sub, sub_self, round64_zero]
      rw [b64_zero_div_natCast _ (by omega), b64_fin_add, add_zero, hv, b64_fin_sub, sub_self, round64_zero, b64_fin_mul, mul_zero,
        round64_zero, b64_fin_add, add_zero, round64_zero]
  obtain ⟨j, rfl⟩ : ∃ j, l = j + 1 := ⟨l - 1, by omega⟩
  exact key j le_rfl

/-- The standard deviation of a constant row of doubles is exactly `0`. -/
theorem rowStd_b64_constant (d : Nat → B64) (l i : Nat) (v : ℚ) (hl : 2 ≤ l)
    (hv : round64 v = Dbl.fin v) (hrow : ∀ o, o < l → d (i * l + o) = ⟨Dbl.fin v⟩) :
    rowStd B64.sqrt d l i = ⟨Dbl.fin 0⟩ := by
  unfold rowStd
  rw [welford_b64_constant d l i v (by omega) hv hrow,
    b64_zero_div_natCast _ (by rw [ulPred_of_pos l (by omega)]; omega)]
  simp [B64.sqrt, sqrt64]

/-- The reduction loop is NaN when its last term is. -/
theorem foldl_add_b64_nan (t : Nat → B64) (l : Nat) (hl : 1 ≤ l)
    (ht : ∀ o, o < l → t o = ⟨Dbl.nan⟩) (a : B64) :
    (List.range l).foldl (fun sum o => sum + t o) a = ⟨Dbl.nan⟩ := by
  obtain ⟨j, rfl⟩ : ∃ j, l = j + 1 := ⟨l - 1, by omega⟩
  rw [List.range_succ, List.foldl_append]
  simp only [List.foldl_cons, List.foldl_nil]
  rw [ht j (by omega), b64_add_nan]

/-- In binary64 arithmetic the value of a pair one of whose rows is a constant row of doubles
is NaN, whatever the other row holds. -/
theorem pairValue_b64_constant (d : Nat → B64) (n l c i k : Nat) (v : ℚ) (hl : 2 ≤ l)
    (hi : i < n) (hk : k < n) (hv : round64 v = Dbl.fin v)
    (hrow : ∀ o, o < l → d (c * l + o) = ⟨Dbl.fin v⟩) (hc : i = c ∨ k = c) :
    pairValue d l (momentPass B64.sqrt d n l).1 (momentPass B64.sqrt d n l).2 i k
      = ⟨Dbl.nan⟩ := by
  rw [pairValue_rows B64.sqrt d n l i k hi hk]
  have hm : rowMean d l c = ⟨Dbl.fin v⟩ := by
    unfold rowMean
    rw [welford_b64_constant d l c v (by omega) hv hrow]
  have hs := rowStd_b64_constant d l c v hl hv hrow
  have hsum : pairSum d l i k (rowMean d l i) (rowMean d l k) (rowStd B64.sqrt d l i)
      (rowStd B64.sqrt d l k) = ⟨Dbl.nan⟩ := by
    unfold pairSum
    apply foldl_add_b64_nan _ l (by omega)
    intro o ho
    rcases hc with rfl | rfl
    · rw [hm, hs, hrow o ho, b64_fin_sub, sub_self, round64_zero]
      exact b64_term_left _ _
    · rw [hm, hs, hrow o ho, b64_fin_sub, sub_self, round64_zero]
      exact b64_term_right _ _
  rw [hsum, b64_nan_div]

/-- The reference correlation of the rows `[1,2,3,4]` and `[2,1,4,3]` is `3/5`. -/
theorem pearsonRef_mixed :
    pearsonRef Real.sqrt (sampleRows [1, 2, 3, 4, 5, 5, 5, 5, 2, 1, 4, 3]) 4 0 2 = 3 / 5 := by
  have h5 : Real.sqrt (5 * 5) = 5 := Real.sqrt_mul_self (by norm_num)
  have hco : coDev (sampleRows [1, 2, 3, 4, 5, 5, 5, 5, 2, 1, 4, 3] : Nat → ℝ) 4 0 2 = 3 := by
    norm_num [coDev, meanRef, Finset.sum_range_succ, sampleRows]
  have hd0 : devSq (sampleRows [1, 2, 3, 4, 5, 5, 5, 5, 2, 1, 4, 3] : Nat → ℝ) 4 0 = 5 := by
    norm_num [devSq, meanRef, Finset.sum_range_succ, sampleRows]
  have hd2 : devSq (sampleRows [1, 2, 3, 4, 5, 5, 5, 5, 2, 1, 4, 3] : Nat → ℝ) 4 2 = 5 := by
    norm_num [devSq, meanRef, Finset.sum_range_succ, sampleRows]
  unfold pearsonRef
  rw [hco, hd0, hd2, h5]

/-- Row 1 of the rows `[1,2,3,4]`, `[5,5,5,5]`, `[2,1,4,3]` is constant, rows 0 and 2 are
not. -/
theorem mixed_constant_row :
    NonConstant (sampleRows [1, 2, 3, 4, 5, 5, 5, 5, 2, 1, 4, 3] : Nat → ℝ) 4 0 ∧
    ¬ NonConstant (sampleRows [1, 2, 3, 4, 5, 5, 5, 5, 2, 1, 4, 3] : Nat → ℝ) 4 1 ∧
    NonConstant (sampleRows [1, 2, 3, 4, 5, 5, 5, 5, 2, 1, 4, 3] : Nat → ℝ) 4 2 := by
  refine ⟨⟨0, by decide, 1, by decide, by norm_num [sampleRows]⟩, ?_,
    ⟨0, by decide, 1, by decide, by norm_num [sampleRows]⟩⟩
  rw [not_nonConstant_iff]
  intro o ho o' ho'
  interval_cases o <;> interval_cases o' <;> norm_num [sampleRows]

/-! ## The claims -/

/-- C1: the stored value is not always the Pearson correlation. On the rows `[1,2,3]`,
`[2,4,6]`, `[3,6,9]` (`n = 3`, `l = 3`, all non-constant) the correlation of rows `0` and `1`
is `1`, and that is what the run without interleaving stores at their index; but when work
items `1` and `2` both store `sum = 0` before either adds its reduction, the shared `sum`
holds both totals and the entry of the pair `(0, 1)` is stored as `2`. -/
theorem race_breaks_stored_correlation :
    NonConstant (sampleRows [1, 2, 3, 2, 4, 6, 3, 6, 9] : Nat → ℝ) 3 0 ∧
    NonConstant (sampleRows [1, 2, 3, 2, 4, 6, 3, 6, 9] : Nat → ℝ) 3 1 ∧
    pearsonRef Real.sqrt (sampleRows [1, 2, 3, 2, 4, 6, 3, 6, 9]) 3 0 1 = 1 ∧
    (pearson Real.sqrt (sampleRows [1, 2, 3, 2, 4, 6, 3, 6, 9]) 3 3)[slot 3 0 1]? = some 1 ∧
    (raceRun (sampleRows [1, 2, 3, 2, 4, 6, 3, 6, 9]) 3 3
        (momentPass Real.sqrt (sampleRows [1, 2, 3, 2, 4, 6, 3, 6, 9]) 3 3).1
        (momentPass Real.sqrt (sampleRows [1, 2, 3, 2, 4, 6, 3, 6, 9]) 3 3).2
        [1, 2, 1, 2, 1, 2, 0, 0, 0] (List.replicate (nn 3) 0)).out[slot 3 0 1]? = some 2 := by
  obtain ⟨f0, f1, f2⟩ := forwardMap_three
  obtain ⟨s12, s01, s02, hn⟩ := slot_three
  have hnc0 : NonConstant (sampleRows [1, 2, 3, 2, 4, 6, 3, 6, 9] : Nat → ℝ) 3 0 :=
    ⟨0, by decide, 1, by decide, by norm_num [sampleRows]⟩
  have hnc1 : NonConstant (sampleRows [1, 2, 3, 2, 4, 6, 3, 6, 9] : Nat → ℝ) 3 1 :=
    ⟨0, by decide, 1, by decide, by norm_num [sampleRows]⟩
  have a01 : AffineRow (sampleRows [1, 2, 3, 2, 4, 6, 3, 6, 9] : Nat → ℝ) 3 0 1 2 0 := by
    intro o ho
    interval_cases o <;> norm_num [sampleRows]
  have a02 : AffineRow (sampleRows [1, 2, 3, 2, 4, 6, 3, 6, 9] : Nat → ℝ) 3 0 2 3 0 := by
    intro o ho
    interval_cases o <;> norm_num [sampleRows]
  have r01 : pearsonRef Real.sqrt (sampleRows [1, 2, 3, 2, 4, 6, 3, 6, 9]) 3 0 1 = 1 := by
    rw [affine_pearsonRef _ 3 0 1 2 0 (by decide) hnc0 (by norm_num) a01, if_pos (by norm_num)]
  have v01 := pairValue_of_affine _ 3 3 0 1 2 0 (by decide) (by decide) (by decide) hnc0
    (by norm_num) a01
  have v02 := pairValue_of_affine _ 3 3 0 2 3 0 (by decide) (by decide) (by decide) hnc0
    (by norm_num) a02
  rw [if_pos (by norm_num)] at v01 v02
  refine ⟨hnc0, hnc1, r01, ?_, ?_⟩
  · rw [pearson_slot Real.sqrt _ 3 3 0 1 (by decide) (by decide), v01]
  · simp only [pairValue, List.getD_eq_getElem?_getD] at v01 v02
    simp [raceRun, raceStep, f0, f1, f2, s12, s01, s02, hn, List.replicate]
    rw [add_div, v01, v02]
    norm_num

/-- C2: for a row of `l ≥ 2` observations, the Welford loop started from `mk = sk = 0` ends with
`mk` the arithmetic mean `(Σ x[i,o]) / l` and `sk` the sum of squared deviations from it, so the
moment pass stores that mean in `m[i]` and `sqrt (Σ (x[i,o] - mean)^2 / (l - 1))` in `s[i]`
(exact real arithmetic). -/
theorem moment_pass_mean_std (d : Nat → ℝ) (n l i : Nat) (hl : 2 ≤ l) (hi : i < n) :
    welford d l i
      = ((∑ o ∈ Finset.range l, d (i * l + o)) / (l : ℝ),
         ∑ o ∈ Finset.range l,
           (d (i * l + o) - (∑ o' ∈ Finset.range l, d (i * l + o')) / (l : ℝ)) ^ 2) ∧
    (momentPass Real.sqrt d n l).1[i]?
      = some ((∑ o ∈ Finset.range l, d (i * l + o)) / (l : ℝ)) ∧
    (momentPass Real.sqrt d n l).2[i]?
      = some (Real.sqrt ((∑ o ∈ Finset.range l,
           (d (i * l + o) - (∑ o' ∈ Finset.range l, d (i * l + o')) / (l : ℝ)) ^ 2)
           / ((l : ℝ) - 1))) := by
  have h1 : rowMean d l i = meanRef d l i := welford_mean d l i
  have h2 : (welford d l i).2 = devSq d l i := welford_devSq d l i
  have h3 : rowStd Real.sqrt d l i = stdRef Real.sqrt d l i :=
    rowStd_eq Real.sqrt d l i (by omega)
  refine ⟨Prod.ext h1 h2, ?_, ?_⟩
  · simp only [momentPass, List.getElem?_map, List.getElem?_range hi, Option.map_some']
    rw [h1]
    rfl
  · simp only [momentPass, List.getElem?_map, List.getElem?_range hi, Option.map_some']
    rw [h3]
    rfl

/-- Instance of C2 on the row `[2,4,6]` (`n = 2`, `l = 3`, `i = 1`). -/
theorem moment_pass_mean_std_witness :
    2 ≤ 3 ∧ 1 < 2 ∧
    (welford (knownRows : Nat → ℝ) 3 1
      = ((∑ o ∈ Finset.range 3, knownRows (1 * 3 + o)) / ((3 : Nat) : ℝ),
         ∑ o ∈ Finset.range 3,
           (knownRows (1 * 3 + o)
             - (∑ o' ∈ Finset.range 3, knownRows (1 * 3 + o')) / ((3 : Nat) : ℝ)) ^ 2) ∧
    (momentPass Real.sqrt knownRows 2 3).1[1]?
      = some ((∑ o ∈ Finset.range 3, knownRows (1 * 3 + o)) / ((3 : Nat) : ℝ)) ∧
    (momentPass Real.sqrt knownRows 2 3).2[1]?
      = some (Real.sqrt ((∑ o ∈ Finset.range 3,
           (knownRows (1 * 3 + o)
             - (∑ o' ∈ Finset.range 3, knownRows (1 * 3 + o')) / ((3 : Nat) : ℝ)) ^ 2)
           / (((3 : Nat) : ℝ) - 1)))) :=
  ⟨by decide, by decide, moment_pass_mean_std knownRows 2 3 1 (by decide) (by decide)⟩

/-- C3: for `n ≥ 2` the forward mapping sends every work item `ik < nn` to a pair `(i, k)` with
`i < k < n`, and every pair `i < k < n` is the image of exactly one work item `ik < nn`. When
the reflection is taken (`k ≤ i`), neither `n - i - 2` nor `n - k - 1` goes below zero. -/
theorem forwardMap_bijection (n : Nat) (hn : 2 ≤ n) :
    (∀ ik, ik < nn n →
      (forwardMap n ik).1 < (forwardMap n ik).2 ∧ (forwardMap n ik).2 < n) ∧
    (∀ i k, i < k → k < n → ∃! ik, ik < nn n ∧ forwardMap n ik = (i, k)) ∧
    (∀ ik, ik < nn n → ik % n ≤ ik / n → ik / n + 2 ≤ n ∧ ik % n + 1 ≤ n) := by
  refine ⟨?_, ?_, ?_⟩
  · intro ik hik
    obtain ⟨h1, h2, _⟩ := forwardMap_code n ik hn hik
    exact ⟨h1, h2⟩
  · intro i k hik hk
    obtain ⟨ik, h1, h2⟩ := forwardMap_surj n i k hik hk
    refine ⟨ik, ⟨h1, h2⟩, ?_⟩
    rintro ik' ⟨h1', h2'⟩
    exact forwardMap_inj n ik' ik hn h1' h1 (h2'.trans h2.symm)
  · intro ik hik _
    obtain ⟨_, h2, h3⟩ := div_mod_facts n ik hn hik
    omega

/-- Instance of C3 at `n = 4` (six work items). -/
theorem forwardMap_bijection_witness :
    2 ≤ 4 ∧
    ((∀ ik, ik < nn 4 →
      (forwardMap 4 ik).1 < (forwardMap 4 ik).2 ∧ (forwardMap 4 ik).2 < 4) ∧
    (∀ i k, i < k → k < 4 → ∃! ik, ik < nn 4 ∧ forwardMap 4 ik = (i, k)) ∧
    (∀ ik, ik < nn 4 → ik % 4 ≤ ik / 4 → ik / 4 + 2 ≤ 4 ∧ ik % 4 + 1 ≤ 4)) :=
  ⟨by decide, forwardMap_bijection 4 (by decide)⟩

/-- C4: for `n ≥ 2` the packed-slot function maps the pairs `i < k < n` one-to-one onto
`0 .. nn-1`: every slot is below `nn`, distinct pairs get distinct slots, and every index below
`nn` is the slot of some pair. No subtraction of the slot expression goes below zero:
`(n-i)*((n-i)-1)/2 ≤ nn` and `i + 1 ≤ nn - (n-i)*((n-i)-1)/2 + k`. -/
theorem slot_bijection (n : Nat) (hn : 2 ≤ n) :
    (∀ i k, i < k → k < n → slot n i k < nn n) ∧
    (∀ i k i' k', i < k → k < n → i' < k' → k' < n →
      slot n i k = slot n i' k' → i = i' ∧ k = k') ∧
    (∀ j, j < nn n → ∃ i k, i < k ∧ k < n ∧ slot n i k = j) ∧
    (∀ i k, i < k → k < n →
      (n - i) * ((n - i) - 1) / 2 ≤ nn n ∧
      i + 1 ≤ nn n - (n - i) * ((n - i) - 1) / 2 + k) := by
  refine ⟨fun i k hik hk => slot_lt n i k hik hk,
    fun i k i' k' hik hk hik' hk' h => slot_inj n i k i' k' hik hk hik' hk' h,
    fun j hj => slot_surj n hn j hj, ?_⟩
  intro i k hik _
  have h : tri (n - i) ≤ tri n := tri_mono (Nat.sub_le n i)
  change tri (n - i) ≤ tri n ∧ i + 1 ≤ tri n - tri (n - i) + k
  omega

/-- Instance of C4 at `n = 4` (six slots). -/
theorem slot_bijection_witness :
    2 ≤ 4 ∧
    ((∀ i k, i < k → k < 4 → slot 4 i k < nn 4) ∧
    (∀ i k i' k', i < k → k < 4 → i' < k' → k' < 4 →
      slot 4 i k = slot 4 i' k' → i = i' ∧ k = k') ∧
    (∀ j, j < nn 4 → ∃ i k, i < k ∧ k < 4 ∧ slot 4 i k = j) ∧
    (∀ i k, i < k → k < 4 →
      (4 - i) * ((4 - i) - 1) / 2 ≤ nn 4 ∧
      i + 1 ≤ nn 4 - (4 - i) * ((4 - i) - 1) / 2 + k)) :=
  ⟨by decide, slot_bijection 4 (by decide)⟩

/-- C5: the packed output is the upper triangle in row-major order. For `n ≥ 2`: `slot(0,1) = 0`;
moving one column right inside a row adds one; the first entry of row `i+1` follows the last
entry of row `i`; and `slot(i,k)` is the rank of `(i,k)` in lexicographic order: the number of
pairs `i' < k' < n` before `(i,k)`, which is the number `Σ_{j<i} (n-1-j)` of pairs in earlier
rows plus the number `k-i-1` of earlier pairs in row `i`. -/
theorem slot_row_major (n : Nat) (hn : 2 ≤ n) :
    slot n 0 1 = 0 ∧
    (∀ i k, i < k → k < n - 1 → slot n i (k + 1) = slot n i k + 1) ∧
    (∀ i, i < n - 2 → slot n (i + 1) (i + 2) = slot n i (n - 1) + 1) ∧
    (∀ i k, i < k → k < n → slot n i k = (lexBefore n i k).card) ∧
    (∀ i k, i < k → k < n →
      slot n i k = (∑ j ∈ Finset.range i, (n - 1 - j)) + (k - i - 1)) := by
  refine ⟨slot_first n, fun i k hik _ => slot_succ_col n i k hik,
    fun i hi => slot_succ_row n i (by omega),
    fun i k hik hk => slot_eq_card n i k hn hik hk, ?_⟩
  intro i k hik hk
  have hrow : ∀ r, r < n →
      (∑ j ∈ Finset.range r, (n - 1 - j)) + tri (n - r) = nn n := by
    intro r
    induction r with
    | zero =>
      intro _
      simp [nn_eq_tri]
    | succ r ih =>
      intro hr
      have h1 := ih (by omega)
      have h2 := tri_sub_succ n r (by omega)
      rw [Finset.sum_range_succ]
      omega
  have h1 := hrow i (by omega)
  have h2 := slot_add n i k hik
  omega

/-- Instance of C5 at `n = 5`. -/
theorem slot_row_major_witness :
    2 ≤ 5 ∧
    (slot 5 0 1 = 0 ∧
    (∀ i k, i < k → k < 5 - 1 → slot 5 i (k + 1) = slot 5 i k + 1) ∧
    (∀ i, i < 5 - 2 → slot 5 (i + 1) (i + 2) = slot 5 i (5 - 1) + 1) ∧
    (∀ i k, i < k → k < 5 → slot 5 i k = (lexBefore 5 i k).card) ∧
    (∀ i k, i < k → k < 5 →
      slot 5 i k = (∑ j ∈ Finset.range i, (5 - 1 - j)) + (k - i - 1))) :=
  ⟨by decide, slot_row_major 5 (by decide)⟩

/-- C6: for `n ≥ 2` the pairwise pass writes every index of the output exactly once: the list of
indices written by the work items `0 .. nn-1` is a rearrangement of `0 .. nn-1`, every index
below `nn` is the target of exactly one work item, and the value that work item stores there is
still there when `pearson` returns. -/
theorem pairwise_pass_writes_once (sqrt : α → α) (d : Nat → α) (n l : Nat) (hn : 2 ≤ n) :
    ((List.range (nn n)).map
        (fun ik => slot n (forwardMap n ik).1 (forwardMap n ik).2)).Perm
      (List.range (nn n)) ∧
    (∀ j, j < nn n →
      ∃! ik, ik < nn n ∧ slot n (forwardMap n ik).1 (forwardMap n ik).2 = j) ∧
    (∀ ik, ik < nn n →
      (pearson sqrt d n l)[slot n (forwardMap n ik).1 (forwardMap n ik).2]?
        = some (pairValue d l (momentPass sqrt d n l).1 (momentPass sqrt d n l).2
            (forwardMap n ik).1 (forwardMap n ik).2)) := by
  refine ⟨?_, ?_, fun ik hik => pearson_target sqrt d n l ik hn hik⟩
  · have hnd : ((List.range (nn n)).map (target n)).Nodup := by
      rw [List.nodup_map_iff_inj_on (List.nodup_range _)]
      intro a ha b hb h
      exact target_inj n a b hn (List.mem_range.mp ha) (List.mem_range.mp hb) h
    refine (List.perm_ext_iff_of_nodup hnd (List.nodup_range _)).mpr ?_
    intro j
    rw [List.mem_map, List.mem_range]
    constructor
    · rintro ⟨ik, hik, rfl⟩
      exact target_lt n ik hn (List.mem_range.mp hik)
    · intro hj
      obtain ⟨ik, h1, h2⟩ := target_surj n j hn hj
      exact ⟨ik, List.mem_range.mpr h1, h2⟩
  · intro j hj
    obtain ⟨ik, h1, h2⟩ := target_surj n j hn hj
    refine ⟨ik, ⟨h1, h2⟩, ?_⟩
    rintro ik' ⟨h1', h2'⟩
    exact target_inj n ik' ik hn h1' h1 (h2'.trans h2.symm)

/-- Instance of C6 over the rationals: three rows of two observations, `sqrt` replaced by the
identity. -/
theorem pairwise_pass_writes_once_witness :
    2 ≤ 3 ∧
    (((List.range (nn 3)).map
        (fun ik => slot 3 (forwardMap 3 ik).1 (forwardMap 3 ik).2)).Perm
      (List.range (nn 3)) ∧
    (∀ j, j < nn 3 →
      ∃! ik, ik < nn 3 ∧ slot 3 (forwardMap 3 ik).1 (forwardMap 3 ik).2 = j) ∧
    (∀ ik, ik < nn 3 →
      (pearson (fun x : ℚ => x) (sampleRows [1, 2, 4, 3, 5, 9]) 3 2)[slot 3 (forwardMap 3 ik).1
          (forwardMap 3 ik).2]?
        = some (pairValue (sampleRows [1, 2, 4, 3, 5, 9]) 2
            (momentPass (fun x : ℚ => x) (sampleRows [1, 2, 4, 3, 5, 9]) 3 2).1
            (momentPass (fun x : ℚ => x) (sampleRows [1, 2, 4, 3, 5, 9]) 3 2).2
            (forwardMap 3 ik).1 (forwardMap 3 ik).2))) :=
  ⟨by decide,
   pairwise_pass_writes_once (fun x : ℚ => x) (sampleRows [1, 2, 4, 3, 5, 9]) 3 2 (by decide)⟩

/-- C7: the stored values do not all lie in `[-1, 1]`. On the rows `[1,2,3]`, `[3,2,1]`,
`[4,2,0]` (`n = 3`, `l = 3`), none of which has zero variance, when work items `1` and `2`
both store `sum = 0` before either adds its reduction, the entry of the pair `(0, 1)` is
stored as `-2`. -/
theorem race_breaks_unit_interval :
    (∀ i, i < 3 →
      (∑ o ∈ Finset.range 3,
        ((sampleRows [1, 2, 3, 3, 2, 1, 4, 2, 0] : Nat → ℝ) (i * 3 + o)
          - meanRef (sampleRows [1, 2, 3, 3, 2, 1, 4, 2, 0]) 3 i) ^ 2)
        / (((3 : Nat) : ℝ) - 1) ≠ 0) ∧
    (raceRun (sampleRows [1, 2, 3, 3, 2, 1, 4, 2, 0]) 3 3
        (momentPass Real.sqrt (sampleRows [1, 2, 3, 3, 2, 1, 4, 2, 0]) 3 3).1
        (momentPass Real.sqrt (sampleRows [1, 2, 3, 3, 2, 1, 4, 2, 0]) 3 3).2
        [1, 2, 1, 2, 1, 2, 0, 0, 0] (List.replicate (nn 3) 0)).out[slot 3 0 1]? = some (-2) ∧
    ¬ (-1 ≤ (-2 : ℝ) ∧ (-2 : ℝ) ≤ 1) := by
  obtain ⟨f0, f1, f2⟩ := forwardMap_three
  obtain ⟨s12, s01, s02, hn⟩ := slot_three
  have hnc0 : NonConstant (sampleRows [1, 2, 3, 3, 2, 1, 4, 2, 0] : Nat → ℝ) 3 0 :=
    ⟨0, by decide, 1, by decide, by norm_num [sampleRows]⟩
  have a01 : AffineRow (sampleRows [1, 2, 3, 3, 2, 1, 4, 2, 0] : Nat → ℝ) 3 0 1 (-1) 4 := by
    intro o ho
    interval_cases o <;> norm_num [sampleRows]
  have a02 : AffineRow (sampleRows [1, 2, 3, 3, 2, 1, 4, 2, 0] : Nat → ℝ) 3 0 2 (-2) 6 := by
    intro o ho
    interval_cases o <;> norm_num [sampleRows]
  have v01 := pairValue_of_affine _ 3 3 0 1 (-1) 4 (by decide) (by decide) (by decide) hnc0
    (by norm_num) a01
  have v02 := pairValue_of_affine _ 3 3 0 2 (-2) 6 (by decide) (by decide) (by decide) hnc0
    (by norm_num) a02
  rw [if_neg (by norm_num)] at v01 v02
  refine ⟨?_, ?_, by norm_num⟩
  · intro i hi
    interval_cases i <;> norm_num [Finset.sum_range_succ, meanRef, sampleRows]
  · simp only [pairValue, List.getD_eq_getElem?_getD] at v01 v02
    simp [raceRun, raceStep, f0, f1, f2, s12, s01, s02, hn, List.replicate]
    rw [add_div, v01, v02]
    norm_num

/-- C8: a pair of rows in affine relation is not always stored as `1` or `-1`. On the rows
`[1,2,3]`, `[2,4,6]`, `[3,6,9]` (`n = 3`, `l = 3`) row `2` is `3 *` row `0`, and row `0` is
not constant; when work item `1` stores `sum = 0` between the reduction and the final store of
work item `2`, the entry of the pair `(0, 2)` is stored as `0`. For `n = 2` there is one work
item and its three steps are the only schedule: the rows `[1,2,3]`, `[2,4,6]` give the output
`[1]` and the rows `[1,2,3]`, `[3,2,1]` give `[-1]`. -/
theorem race_breaks_affine_rows :
    (∀ o, o < 3 → (sampleRows [1, 2, 3, 2, 4, 6, 3, 6, 9] : Nat → ℝ) (2 * 3 + o)
      = 3 * sampleRows [1, 2, 3, 2, 4, 6, 3, 6, 9] (0 * 3 + o) + 0) ∧
    NonConstant (sampleRows [1, 2, 3, 2, 4, 6, 3, 6, 9] : Nat → ℝ) 3 0 ∧
    (raceRun (sampleRows [1, 2, 3, 2, 4, 6, 3, 6, 9]) 3 3
        (momentPass Real.sqrt (sampleRows [1, 2, 3, 2, 4, 6, 3, 6, 9]) 3 3).1
        (momentPass Real.sqrt (sampleRows [1, 2, 3, 2, 4, 6, 3, 6, 9]) 3 3).2
        [2, 2, 1, 2, 1, 1, 0, 0, 0] (List.replicate (nn 3) 0)).out[slot 3 0 2]? = some 0 ∧
    sequentialSchedule 2 = [0, 0, 0] ∧
    (raceRun (sampleRows [1, 2, 3, 2, 4, 6]) 2 3
        (momentPass Real.sqrt (sampleRows [1, 2, 3, 2, 4, 6]) 2 3).1
        (momentPass Real.sqrt (sampleRows [1, 2, 3, 2, 4, 6]) 2 3).2
        [0, 0, 0] (List.replicate (nn 2) 0)).out = [1] ∧
    (raceRun (sampleRows [1, 2, 3, 3, 2, 1]) 2 3
        (momentPass Real.sqrt (sampleRows [1, 2, 3, 3, 2, 1]) 2 3).1
        (momentPass Real.sqrt (sampleRows [1, 2, 3, 3, 2, 1]) 2 3).2
        [0, 0, 0] (List.replicate (nn 2) 0)).out = [-1] := by
  obtain ⟨f0, f1, f2⟩ := forwardMap_three
  obtain ⟨s12, s01, s02, hn⟩ := slot_three
  have hseq : sequentialSchedule 2 = [0, 0, 0] := by decide
  refine ⟨?_, ⟨0, by decide, 1, by decide, by norm_num [sampleRows]⟩, ?_, hseq, ?_, ?_⟩
  · intro o ho
    interval_cases o <;> norm_num [sampleRows]
  · simp [raceRun, raceStep, f0, f1, f2, s12, s01, s02, hn, List.replicate]
  · rw [← hseq, raceRun_sequential]
    exact sequential_affine_rows.2.1
  · rw [← hseq, raceRun_sequential]
    exact sequential_affine_rows.2.2

/-- C9: a stored value of absolute value `1` does not always come with an affine relation. On
the rows `[1,2,3]`, `[2,4,6]`, `[1,4,9]` (`n = 3`, `l = 3`) rows `0` and `2` are not constant
and row `2` is no affine function of row `0`; when work item `1` stores `sum = 0` and adds its
reduction between the reduction and the final store of work item `2`, the entry of the pair
`(0, 2)` is the value `1` of the pair `(0, 1)`. -/
theorem race_breaks_abs_one_iff_affine :
    NonConstant (sampleRows [1, 2, 3, 2, 4, 6, 1, 4, 9] : Nat → ℝ) 3 0 ∧
    NonConstant (sampleRows [1, 2, 3, 2, 4, 6, 1, 4, 9] : Nat → ℝ) 3 2 ∧
    (¬ ∃ a b : ℝ, a ≠ 0 ∧ ∀ o, o < 3 →
      (sampleRows [1, 2, 3, 2, 4, 6, 1, 4, 9] : Nat → ℝ) (2 * 3 + o)
        = a * sampleRows [1, 2, 3, 2, 4, 6, 1, 4, 9] (0 * 3 + o) + b) ∧
    |(raceRun (sampleRows [1, 2, 3, 2, 4, 6, 1, 4, 9]) 3 3
        (momentPass Real.sqrt (sampleRows [1, 2, 3, 2, 4, 6, 1, 4, 9]) 3 3).1
        (momentPass Real.sqrt (sampleRows [1, 2, 3, 2, 4, 6, 1, 4, 9]) 3 3).2
        [2, 2, 1, 1, 2, 1, 0, 0, 0] (List.replicate (nn 3) 0)).out.getD (slot 3 0 2) 0| = 1 := by
  obtain ⟨f0, f1, f2⟩ := forwardMap_three
  obtain ⟨s12, s01, s02, hn⟩ := slot_three
  have hnc0 : NonConstant (sampleRows [1, 2, 3, 2, 4, 6, 1, 4, 9] : Nat → ℝ) 3 0 :=
    ⟨0, by decide, 1, by decide, by norm_num [sampleRows]⟩
  have hnc2 : NonConstant (sampleRows [1, 2, 3, 2, 4, 6, 1, 4, 9] : Nat → ℝ) 3 2 :=
    ⟨0, by decide, 1, by decide, by norm_num [sampleRows]⟩
  have a01 : AffineRow (sampleRows [1, 2, 3, 2, 4, 6, 1, 4, 9] : Nat → ℝ) 3 0 1 2 0 := by
    intro o ho
    interval_cases o <;> norm_num [sampleRows]
  have v01 := pairValue_of_affine _ 3 3 0 1 2 0 (by decide) (by decide) (by decide) hnc0
    (by norm_num) a01
  rw [if_pos (by norm_num)] at v01
  refine ⟨hnc0, hnc2, ?_, ?_⟩
  · rintro ⟨a, b, _, h⟩
    have h0 := h 0 (by decide)
    have h1 := h 1 (by decide)
    have h2 := h 2 (by decide)
    norm_num [sampleRows] at h0 h1 h2
    linarith
  · simp only [pairValue, List.getD_eq_getElem?_getD] at v01
    simp [raceRun, raceStep, f0, f1, f2, s12, s01, s02, hn, List.replicate]
    rw [v01]
    norm_num

/-- C10: symmetry. The per-pair value of the pairwise pass body,
`Σ (x[i,o]-m[i]) * (x[k,o]-m[k]) / s[i] / s[k]` divided by `l - 1`, is unchanged when `i` and `k`
are swapped, for any moment arrays; hence the entry `pearson` stores for `i < k` equals the value
a reference obtains by processing `(k, i)` directly (exact real arithmetic). -/
theorem pair_value_symmetric (d : Nat → ℝ) (n l : Nat) :
    (∀ (m s : List ℝ) (i k : Nat), pairValue d l m s i k = pairValue d l m s k i) ∧
    (∀ i k, i < k → k < n →
      (pearson Real.sqrt d n l)[slot n i k]?
        = some (pairValue d l (momentPass Real.sqrt d n l).1 (momentPass Real.sqrt d n l).2
            k i)) := by
  have hsym : ∀ (m s : List ℝ) (i k : Nat), pairValue d l m s i k = pairValue d l m s k i := by
    intro m s i k
    unfold pairValue
    simp only [pairSum_eq]
    congr 1
    rw [div_right_comm]
    congr 2
    exact Finset.sum_congr rfl (fun o _ => mul_comm _ _)
  refine ⟨hsym, fun i k hik hk => ?_⟩
  rw [pearson_slot Real.sqrt d n l i k hik hk, hsym]

/-- Instance of the stored-entry part of C10: three rows of two observations, pair `(0, 2)`. -/
theorem pair_value_symmetric_witness :
    0 < 2 ∧ 2 < 3 ∧
    (pearson Real.sqrt (sampleRows [1, 2, 4, 3, 5, 9]) 3 2)[slot 3 0 2]?
      = some (pairValue (sampleRows [1, 2, 4, 3, 5, 9]) 2
          (momentPass Real.sqrt (sampleRows [1, 2, 4, 3, 5, 9]) 3 2).1
          (momentPass Real.sqrt (sampleRows [1, 2, 4, 3, 5, 9]) 3 2).2 2 0) :=
  ⟨by decide, by decide,
   (pair_value_symmetric (sampleRows [1, 2, 4, 3, 5, 9]) 3 2).2 0 2 (by decide) (by decide)⟩

/-- C11: self-consistency. For `l ≥ 2` and a non-constant row `i`, the divisor `s[i]` is nonzero
and the per-pair computation of the pairwise pass applied to the row with itself (`k = i`, with
the mean and standard deviation of the moment pass) is exactly `1` (exact real arithmetic). -/
theorem pair_value_self (d : Nat → ℝ) (n l i : Nat) (hl : 2 ≤ l) (hi : i < n)
    (hnc : NonConstant d l i) :
    (momentPass Real.sqrt d n l).2.getD i 0 ≠ 0 ∧
    pairValue d l (momentPass Real.sqrt d n l).1 (momentPass Real.sqrt d n l).2 i i = 1 := by
  constructor
  · rw [momentPass_std _ d n l i hi, rowStd_eq _ d l i (by omega)]
    exact (stdRef_pos d l i hl hnc).ne'
  · rw [pairValue_eq_pearsonRef d n l i i hi hi hl,
      affine_pearsonRef d l i i 1 0 (by omega) hnc one_ne_zero (fun o _ => by ring),
      if_pos one_pos]

/-- Instance of C11 on the row `[2,4,6]` of the known-value input (`n = 2`, `l = 3`, `i = 1`). -/
theorem pair_value_self_witness :
    2 ≤ 3 ∧ 1 < 2 ∧ NonConstant (knownRows : Nat → ℝ) 3 1 ∧
    ((momentPass Real.sqrt knownRows 2 3).2.getD 1 0 ≠ 0 ∧
    pairValue knownRows 3 (momentPass Real.sqrt knownRows 2 3).1
      (momentPass Real.sqrt knownRows 2 3).2 1 1 = 1) :=
  ⟨by decide, by decide, ⟨0, by decide, 1, by decide, by norm_num [knownRows, sampleRows]⟩,
   pair_value_self knownRows 2 3 1 (by decide) (by decide)
     ⟨0, by decide, 1, by decide, by norm_num [knownRows, sampleRows]⟩⟩

/-- C13, counterexample in the arithmetic of `double`, for `n = 3`, `l = 4` and exactly one
constant row. On the rows `[1,2,3,4] * 2^-600`, `[5,5,5,5]`, `[1,2,3,4]`, all of whose entries
are doubles, the squared deviations of row 0 underflow: the moment pass stores `s[0] = 0` for
that non-constant row, and the entry of the pair `(0, 2)`, which excludes the constant row, is
`+∞`, not a finite value. On the rows `[1,2,3,4]`, `[5,5,5,5]`, `[2,1,4,3]` the entry of the
pair `(0, 2)` is the double `5404319552844597 / 2^53`, not the reference correlation `3/5`.
Both runs take the work items one after another. When the work items interleave (schedule
`[0,0,0,1,1,2,1,2,2]`: work item 2 stores `sum = 0` before work item 1 reads `sum`), the entry
of the pair `(0, 1)`, which involves the constant row, is stored as `0`: the NaN is masked. -/
theorem constant_row_fails_in_binary64 :
    (List.range 12).map (fun j => (tinyRows j).val)
      = [Dbl.fin (1 / 2 ^ 600), Dbl.fin (2 / 2 ^ 600), Dbl.fin (3 / 2 ^ 600),
          Dbl.fin (4 / 2 ^ 600), Dbl.fin 5, Dbl.fin 5, Dbl.fin 5, Dbl.fin 5,
          Dbl.fin 1, Dbl.fin 2, Dbl.fin 3, Dbl.fin 4] ∧
    (momentPass B64.sqrt tinyRows 3 4).2.map B64.val
      = [Dbl.fin 0, Dbl.fin 0, Dbl.fin (5814122118263953 / 2 ^ 52)] ∧
    (pearson B64.sqrt tinyRows 3 4)[slot 3 0 2]? = some ⟨Dbl.inf false⟩ ∧
    (pearson B64.sqrt tinyRows 3 4).map B64.val = [Dbl.nan, Dbl.inf false, Dbl.nan] ∧
    (List.range 12).map (fun j => (mixedRows j).val)
      = [Dbl.fin 1, Dbl.fin 2, Dbl.fin 3, Dbl.fin 4, Dbl.fin 5, Dbl.fin 5, Dbl.fin 5, Dbl.fin 5,
          Dbl.fin 2, Dbl.fin 1, Dbl.fin 4, Dbl.fin 3] ∧
    (pearson B64.sqrt mixedRows 3 4).map B64.val
      = [Dbl.nan, Dbl.fin (5404319552844597 / 2 ^ 53), Dbl.nan] ∧
    pearsonRef Real.sqrt (sampleRows [1, 2, 3, 4, 5, 5, 5, 5, 2, 1, 4, 3]) 4 0 2 = 3 / 5 ∧
    (5404319552844597 / 2 ^ 53 : ℚ) ≠ 3 / 5 ∧
    (raceRun mixedRows 3 4 (momentPass B64.sqrt mixedRows 3 4).1
        (momentPass B64.sqrt mixedRows 3 4).2 [0, 0, 0, 1, 1, 2, 1, 2, 2]
        (List.replicate (nn 3) 0)).out.map B64.val
      = [Dbl.fin 0, Dbl.fin (5404319552844597 / 2 ^ 53), Dbl.nan] := by
  refine ⟨by decide!, by decide!, by decide!, by decide!, by decide!, by decide!,
    pearsonRef_mixed, by norm_num, by decide!⟩

/-- C13: for `l ≥ 2`, in the run that takes the work items one after another.
In binary64 arithmetic, if the entries of row `c` are all the same double `v`, the output
entry of every pair `i < k < n` that involves row `c` is NaN, whatever the other rows hold (the
division by the zero standard deviation is propagated, not masked). In arithmetic that is
exact on finite values (no rounding, no overflow, no underflow), for finite inputs, the entry
of a pair that involves a constant row is NaN, and the entry of a pair of non-constant rows is
finite and equals the reference Pearson correlation of the two rows. For `n = 3`, `l = 4` and
the rows `[1,2,3,4]`, `[5,5,5,5]`, `[2,1,4,3]` the output in that arithmetic is
`[NaN, 3/5, NaN]`, and `3/5` is the reference value. -/
theorem constant_row_gives_nan :
    (∀ (d : Nat → B64) (n l c : Nat) (v : ℚ), 2 ≤ l → round64 v = Dbl.fin v →
      (∀ o, o < l → d (c * l + o) = ⟨Dbl.fin v⟩) →
      ∀ i k, i < k → k < n → (i = c ∨ k = c) →
        (pearson B64.sqrt d n l)[slot n i k]? = some ⟨Dbl.nan⟩) ∧
    (∀ (x : Nat → ℝ) (n l i k : Nat), 2 ≤ l → i < k → k < n →
      ((¬ NonConstant x l i ∨ ¬ NonConstant x l k) →
        (pearson (Dbl.sqrt Real.sqrt) (finData x) n l)[slot n i k]? = some Dbl.nan) ∧
      (NonConstant x l i → NonConstant x l k →
        (pearson (Dbl.sqrt Real.sqrt) (finData x) n l)[slot n i k]?
          = some (Dbl.fin (pearsonRef Real.sqrt x l i k)))) ∧
    pearson (Dbl.sqrt Real.sqrt) (finData (sampleRows [1, 2, 3, 4, 5, 5, 5, 5, 2, 1, 4, 3])) 3 4
      = [Dbl.nan, Dbl.fin (3 / 5), Dbl.nan] ∧
    pearsonRef Real.sqrt (sampleRows [1, 2, 3, 4, 5, 5, 5, 5, 2, 1, 4, 3]) 4 0 2 = 3 / 5 := by
  have gen : ∀ (x : Nat → ℝ) (n l i k : Nat), 2 ≤ l → i < k → k < n →
      ((¬ NonConstant x l i ∨ ¬ NonConstant x l k) →
        (pearson (Dbl.sqrt Real.sqrt) (finData x) n l)[slot n i k]? = some Dbl.nan) ∧
      (NonConstant x l i → NonConstant x l k →
        (pearson (Dbl.sqrt Real.sqrt) (finData x) n l)[slot n i k]?
          = some (Dbl.fin (pearsonRef Real.sqrt x l i k))) := by
    intro x n l i k hl hik hk
    have hs := pearson_slot (Dbl.sqrt Real.sqrt) (finData x) n l i k hik hk
    constructor
    · intro hc
      rw [hs, pairValue_nan_of_constant x n l i k (by omega) hk hl hc]
    · intro hci hck
      rw [hs, pairValue_fin_of_nonConstant x n l i k (by omega) hk hl hci hck]
  refine ⟨?_, gen, ?_, pearsonRef_mixed⟩
  · intro d n l c v hl hv hrow i k hik hk hc
    rw [pearson_slot B64.sqrt d n l i k hik hk,
      pairValue_b64_constant d n l c i k v hl (by omega) hk hv hrow hc]
  · obtain ⟨hnc0, hc1, hnc2⟩ := mixed_constant_row
    have e01 : slot 3 0 1 = 0 := by decide
    have e02 : slot 3 0 2 = 1 := by decide
    have e12 : slot 3 1 2 = 2 := by decide
    have g01 := (gen _ 3 4 0 1 (by decide) (by decide) (by decide)).1 (Or.inr hc1)
    have g02 := (gen _ 3 4 0 2 (by decide) (by decide) (by decide)).2 hnc0 hnc2
    have g12 := (gen _ 3 4 1 2 (by decide) (by decide) (by decide)).1 (Or.inl hc1)
    rw [e01] at g01
    rw [e02, pearsonRef_mixed] at g02
    rw [e12] at g12
    exact list_of_three _ _ _ _ (pearson_length _ _ 3 4) g01 g02 g12

/-- Instances of C13 on the rows `[1,2,3,4]`, `[5,5,5,5]`, `[2,1,4,3]`, whose row 1
is constant: in binary64 arithmetic the entry of the pair `(0, 1)` is NaN; in arithmetic exact
on finite values the entry of the pair `(1, 2)` is NaN and the entry of the pair `(0, 2)` is
the reference correlation. -/
theorem constant_row_gives_nan_witness :
    (2 ≤ 4 ∧ round64 5 = Dbl.fin 5 ∧ (∀ o, o < 4 → mixedRows (1 * 4 + o) = ⟨Dbl.fin 5⟩) ∧
      0 < 1 ∧ 1 < 3 ∧
      (pearson B64.sqrt mixedRows 3 4)[slot 3 0 1]? = some ⟨Dbl.nan⟩) ∧
    (¬ NonConstant (sampleRows [1, 2, 3, 4, 5, 5, 5, 5, 2, 1, 4, 3] : Nat → ℝ) 4 1 ∧
      (pearson (Dbl.sqrt Real.sqrt)
        (finData (sampleRows [1, 2, 3, 4, 5, 5, 5, 5, 2, 1, 4, 3])) 3 4)[slot 3 1 2]?
          = some Dbl.nan) ∧
    (NonConstant (sampleRows [1, 2, 3, 4, 5, 5, 5, 5, 2, 1, 4, 3] : Nat → ℝ) 4 0 ∧
      NonConstant (sampleRows [1, 2, 3, 4, 5, 5, 5, 5, 2, 1, 4, 3] : Nat → ℝ) 4 2 ∧
      (pearson (Dbl.sqrt Real.sqrt)
        (finData (sampleRows [1, 2, 3, 4, 5, 5, 5, 5, 2, 1, 4, 3])) 3 4)[slot 3 0 2]?
          = some (Dbl.fin (pearsonRef Real.sqrt
              (sampleRows [1, 2, 3, 4, 5, 5, 5, 5, 2, 1, 4, 3]) 4 0 2))) :=
  ⟨⟨by decide, by decide!, by decide!, by decide, by decide,
      constant_row_gives_nan.1 mixedRows 3 4 1 5 (by decide) (by decide!) (by decide!)
        0 1 (by decide) (by decide) (Or.inr rfl)⟩,
   ⟨mixed_constant_row.2.1,
     (constant_row_gives_nan.2.1 (sampleRows [1, 2, 3, 4, 5, 5, 5, 5, 2, 1, 4, 3]) 3 4 1 2
       (by decide) (by decide) (by decide)).1 (Or.inl mixed_constant_row.2.1)⟩,
   ⟨mixed_constant_row.1, mixed_constant_row.2.2,
     (constant_row_gives_nan.2.1 (sampleRows [1, 2, 3, 4, 5, 5, 5, 5, 2, 1, 4, 3]) 3 4 0 2
       (by decide) (by decide) (by decide)).2 mixed_constant_row.1 mixed_constant_row.2.2⟩⟩

/-- C14: for `l = 1`, `n ≥ 2` and finite inputs, `l - 1` is `0`; the Welford loop leaves the
single observation as mean and `sk = 0`; every standard deviation, `sqrt (0 / 0)`, is NaN (a
value, not a crash: every operation is total); and every entry of the output is NaN. -/
theorem single_observation_gives_nan (x : Nat → ℝ) (n : Nat) (hn : 2 ≤ n) :
    ulPred 1 = 0 ∧
    (∀ i, welford (finData x) 1 i = (Dbl.fin (x (i * 1 + 0)), Dbl.fin 0)) ∧
    (∀ i, rowStd (Dbl.sqrt Real.sqrt) (finData x) 1 i = Dbl.nan) ∧
    (∀ i, i < n →
      (momentPass (Dbl.sqrt Real.sqrt) (finData x) n 1).1[i]? = some (Dbl.fin (x (i * 1 + 0))) ∧
      (momentPass (Dbl.sqrt Real.sqrt) (finData x) n 1).2[i]? = some Dbl.nan) ∧
    pearson (Dbl.sqrt Real.sqrt) (finData x) n 1 = List.replicate (nn n) Dbl.nan := by
  refine ⟨rfl, fun i => (rowStd_single x i).1, fun i => (rowStd_single x i).2, ?_, ?_⟩
  · intro i hi
    simp only [momentPass, List.getElem?_map, List.getElem?_range hi, Option.map_some',
      (rowStd_single x i).2, rowMean, (rowStd_single x i).1, and_self]
  · rw [List.eq_replicate_iff]
    refine ⟨pearson_length _ _ n 1, fun v hv => ?_⟩
    obtain ⟨i, k, hik, hk, rfl⟩ := pearson_mem _ _ n 1 hn v hv
    exact pairValue_single x n i k (by omega) hk

/-- Instance of C14: three rows of one observation each. -/
theorem single_observation_gives_nan_witness :
    2 ≤ 3 ∧
    pearson (Dbl.sqrt Real.sqrt) (finData (sampleRows [1, 2, 3])) 3 1
      = List.replicate (nn 3) Dbl.nan :=
  ⟨by decide, (single_observation_gives_nan (sampleRows [1, 2, 3]) 3 (by decide)).2.2.2.2⟩

/-- C15: the accumulator `sum` of the pairwise pass is not private to a work item. On the rows
`[1,2,3]`, `[2,4,6]`, `[3,2,1]` (`n = 3`, `l = 3`), when work item `1` stores `sum = 0` between
the reduction and the final store of work item `0`, the entry of the pair `(1, 2)` is `0`,
while `pearson` run without interleaving stores the correlation `-1` there; the model run
without interleaving returns the output of `pearson`. -/
theorem shared_sum_race :
    (raceRun raceRows 3 3 (momentPass Real.sqrt raceRows 3 3).1
        (momentPass Real.sqrt raceRows 3 3).2 [0, 0, 1, 0, 1, 1, 2, 2, 2]
        (List.replicate (nn 3) 0)).out[slot 3 1 2]? = some 0 ∧
    (pearson Real.sqrt raceRows 3 3)[slot 3 1 2]? = some (-1) ∧
    (raceRun raceRows 3 3 (momentPass Real.sqrt raceRows 3 3).1
        (momentPass Real.sqrt raceRows 3 3).2 (sequentialSchedule 3)
        (List.replicate (nn 3) 0)).out = pearson Real.sqrt raceRows 3 3 := by
  refine ⟨?_, ?_, raceRun_sequential _ 3 3 _ _ _⟩
  · have f0 : forwardMap 3 0 = (1, 2) := by decide
    have f1 : forwardMap 3 1 = (0, 1) := by decide
    have f2 : forwardMap 3 2 = (0, 2) := by decide
    have s12 : slot 3 1 2 = 2 := by decide
    have s01 : slot 3 0 1 = 0 := by decide
    have s02 : slot 3 0 2 = 1 := by decide
    have hn : nn 3 = 3 := by decide
    simp [raceRun, raceStep, f0, f1, f2, s12, s01, s02, hn, List.replicate]
  · rw [pearson_slot Real.sqrt raceRows 3 3 1 2 (by decide) (by decide),
      pairValue_eq_pearsonRef raceRows 3 3 1 2 (by decide) (by decide) (by decide),
      affine_pearsonRef raceRows 3 1 2 (-1 / 2) 4 (by decide)
        ⟨0, by decide, 1, by decide, by norm_num [raceRows]⟩ (by norm_num) raceRows_affine,
      if_neg (by norm_num)]

/-- C16: for `n ≥ 2`, every `l` and every work item `ik < nn`, the accesses of the pairwise pass
are in bounds: the resolved `i` and `k` are below `n`, the length of the arrays `m` and `s`;
`i*l+o` and `k*l+o` are below `n*l` for every `o < l`; and the written index is below `nn`, the
length of the output. Every access `d[i*l+k]` of the moment pass with `i < n`, `k < l` is below
`n*l`. -/
theorem accesses_in_bounds (sqrt : α → α) (d : Nat → α) (n l : Nat) (hn : 2 ≤ n) :
    (momentPass sqrt d n l).1.length = n ∧
    (momentPass sqrt d n l).2.length = n ∧
    (pearson sqrt d n l).length = nn n ∧
    (∀ ik, ik < nn n →
      (forwardMap n ik).1 < n ∧ (forwardMap n ik).2 < n ∧
      (∀ o, o < l → (forwardMap n ik).1 * l + o < n * l ∧ (forwardMap n ik).2 * l + o < n * l) ∧
      nn n - (n - (forwardMap n ik).1) * ((n - (forwardMap n ik).1) - 1) / 2
        + (forwardMap n ik).2 - (forwardMap n ik).1 - 1 < nn n) ∧
    (∀ i k, i < n → k < l → i * l + k < n * l) := by
  have hrow : ∀ i k, i < n → k < l → i * l + k < n * l := by
    intro i k hi hk
    have h1 : (i + 1) * l ≤ n * l := Nat.mul_le_mul_right l hi
    rw [Nat.add_mul, Nat.one_mul] at h1
    omega
  refine ⟨by simp [momentPass], by simp [momentPass], pearson_length sqrt d n l, ?_, hrow⟩
  intro ik hik
  obtain ⟨h1, h2, _⟩ := forwardMap_code n ik hn hik
  exact ⟨by omega, h2, fun o ho => ⟨hrow _ o (by omega) ho, hrow _ o h2 ho⟩,
    slot_lt n _ _ h1 h2⟩

/-- Instance of C16 over the rationals: three rows of two observations, `sqrt` replaced by the
identity. -/
theorem accesses_in_bounds_witness :
    2 ≤ 3 ∧
    ((momentPass (fun x : ℚ => x) (sampleRows [1, 2, 4, 3, 5, 9]) 3 2).1.length = 3 ∧
    (momentPass (fun x : ℚ => x) (sampleRows [1, 2, 4, 3, 5, 9]) 3 2).2.length = 3 ∧
    (pearson (fun x : ℚ => x) (sampleRows [1, 2, 4, 3, 5, 9]) 3 2).length = nn 3 ∧
    (∀ ik, ik < nn 3 →
      (forwardMap 3 ik).1 < 3 ∧ (forwardMap 3 ik).2 < 3 ∧
      (∀ o, o < 2 → (forwardMap 3 ik).1 * 2 + o < 3 * 2 ∧ (forwardMap 3 ik).2 * 2 + o < 3 * 2) ∧
      nn 3 - (3 - (forwardMap 3 ik).1) * ((3 - (forwardMap 3 ik).1) - 1) / 2
        + (forwardMap 3 ik).2 - (forwardMap 3 ik).1 - 1 < nn 3) ∧
    (∀ i k, i < 3 → k < 2 → i * 2 + k < 3 * 2)) :=
  ⟨by decide,
   accesses_in_bounds (fun x : ℚ => x) (sampleRows [1, 2, 4, 3, 5, 9]) 3 2 (by decide)⟩

/-- C17: for a row of `l ≥ 2` observations the standard deviation of the moment pass is zero if
and only if all observations of the row are equal; for a row with every observation equal to `c`
the computed mean is exactly `c`; hence for rows `i, k < n` one of the divisors `s[i]`, `s[k]`
of the pairwise pass is zero exactly when row `i` or row `k` is constant (exact real
arithmetic). -/
theorem std_zero_iff_constant (d : Nat → ℝ) (n l : Nat) (hl : 2 ≤ l) :
    (∀ i, rowStd Real.sqrt d l i = 0 ↔
      ∀ o, o < l → ∀ o', o' < l → d (i * l + o) = d (i * l + o')) ∧
    (∀ i c, (∀ o, o < l → d (i * l + o) = c) → rowMean d l i = c) ∧
    (∀ i k, i < n → k < n →
      (((momentPass Real.sqrt d n l).2.getD i 0 = 0 ∨
        (momentPass Real.sqrt d n l).2.getD k 0 = 0) ↔
       ((∀ o, o < l → ∀ o', o' < l → d (i * l + o) = d (i * l + o')) ∨
        (∀ o, o < l → ∀ o', o' < l → d (k * l + o) = d (k * l + o'))))) := by
  have hstd : ∀ i, rowStd Real.sqrt d l i = 0 ↔
      ∀ o, o < l → ∀ o', o' < l → d (i * l + o) = d (i * l + o') := fun i =>
    (rowStd_eq_zero_iff d l i hl).trans (not_nonConstant_iff d l i)
  refine ⟨hstd, fun i c hc => rowMean_of_constant d l i c (by omega) hc, ?_⟩
  intro i k hi hk
  rw [momentPass_std _ d n l i hi, momentPass_std _ d n l k hk, hstd i, hstd k]

/-- Instance of C17 on the known-value input (`n = 2`, `l = 3`). -/
theorem std_zero_iff_constant_witness :
    2 ≤ 3 ∧
    ((∀ i, rowStd Real.sqrt knownRows 3 i = 0 ↔
      ∀ o, o < 3 → ∀ o', o' < 3 → (knownRows : Nat → ℝ) (i * 3 + o) = knownRows (i * 3 + o')) ∧
    (∀ i c, (∀ o, o < 3 → (knownRows : Nat → ℝ) (i * 3 + o) = c) → rowMean knownRows 3 i = c) ∧
    (∀ i k, i < 2 → k < 2 →
      (((momentPass Real.sqrt knownRows 2 3).2.getD i 0 = 0 ∨
        (momentPass Real.sqrt knownRows 2 3).2.getD k 0 = 0) ↔
       ((∀ o, o < 3 → ∀ o', o' < 3 →
          (knownRows : Nat → ℝ) (i * 3 + o) = knownRows (i * 3 + o')) ∨
        (∀ o, o < 3 → ∀ o', o' < 3 →
          (knownRows : Nat → ℝ) (k * 3 + o) = knownRows (k * 3 + o')))))) :=
  ⟨by decide, std_zero_iff_constant knownRows 2 3 (by decide)⟩

/-- C18: with `unsigned long` read as 64-bit wraparound arithmetic, for `2 ≤ n ≤ 2^32` nothing
wraps. In `nn = n*(n-1)/2`, in the reflection `i := n - i - 2`, `k := n - k - 1` (taken when
`k ≤ i`) for every work item `ik < nn`, and in the slot expression
`nn - (n-i)*((n-i)-1)/2 + k - i - 1` evaluated left to right for every pair `i < k < n` (so for
every resolved pair), each 64-bit intermediate result equals the result over the natural
numbers and no subtraction goes below zero. -/
theorem index_arithmetic_no_wrap (n : Nat) (hn2 : 2 ≤ n) (hn : n ≤ 2 ^ 32) :
    (1 ≤ n ∧ sub64 n 1 = n - 1 ∧ mul64 n (n - 1) = n * (n - 1) ∧ nn64 n = nn n) ∧
    (∀ ik, ik < nn n →
      ik < 2 ^ 64 ∧
      (ik % n ≤ ik / n →
        ik / n ≤ n ∧ sub64 n (ik / n) = n - ik / n ∧
        2 ≤ n - ik / n ∧ sub64 (n - ik / n) 2 = n - ik / n - 2 ∧
        ik % n ≤ n ∧ sub64 n (ik % n) = n - ik % n ∧
        1 ≤ n - ik % n ∧ sub64 (n - ik % n) 1 = n - ik % n - 1) ∧
      forwardMap64 n ik = forwardMap n ik ∧
      slot64 n (forwardMap64 n ik).1 (forwardMap64 n ik).2
        = slot n (forwardMap n ik).1 (forwardMap n ik).2) ∧
    (∀ i k, i < k → k < n →
      i ≤ n ∧ sub64 n i = n - i ∧
      1 ≤ n - i ∧ sub64 (n - i) 1 = n - i - 1 ∧
      mul64 (n - i) (n - i - 1) = (n - i) * (n - i - 1) ∧
      (n - i) * (n - i - 1) / 2 ≤ nn n ∧
      sub64 (nn n) ((n - i) * (n - i - 1) / 2) = nn n - (n - i) * (n - i - 1) / 2 ∧
      add64 (nn n - (n - i) * (n - i - 1) / 2) k = nn n - (n - i) * (n - i - 1) / 2 + k ∧
      i ≤ nn n - (n - i) * (n - i - 1) / 2 + k ∧
      sub64 (nn n - (n - i) * (n - i - 1) / 2 + k) i
        = nn n - (n - i) * (n - i - 1) / 2 + k - i ∧
      1 ≤ nn n - (n - i) * (n - i - 1) / 2 + k - i ∧
      sub64 (nn n - (n - i) * (n - i - 1) / 2 + k - i) 1
        = nn n - (n - i) * (n - i - 1) / 2 + k - i - 1 ∧
      slot64 n i k = slot n i k) := by
  have hP : n * (n - 1) < 2 ^ 64 := mul_pred_lt n hn
  have hT : 2 * tri n = n * (n - 1) := two_mul_tri n
  have hn64 : n < 2 ^ 64 := by
    have : (2 : Nat) ^ 32 < 2 ^ 64 := by norm_num
    omega
  have e1 : sub64 n 1 = n - 1 := sub64_eq n 1 (by omega) hn64
  have e2 : mul64 n (n - 1) = n * (n - 1) := mul64_eq _ _ hP
  have e3 : nn64 n = nn n := by
    unfold nn64 nn
    rw [e1, e2]
  have hslot : ∀ i k, i < k → k < n →
      i ≤ n ∧ sub64 n i = n - i ∧
      1 ≤ n - i ∧ sub64 (n - i) 1 = n - i - 1 ∧
      mul64 (n - i) (n - i - 1) = (n - i) * (n - i - 1) ∧
      (n - i) * (n - i - 1) / 2 ≤ nn n ∧
      sub64 (nn n) ((n - i) * (n - i - 1) / 2) = nn n - (n - i) * (n - i - 1) / 2 ∧
      add64 (nn n - (n - i) * (n - i - 1) / 2) k = nn n - (n - i) * (n - i - 1) / 2 + k ∧
      i ≤ nn n - (n - i) * (n - i - 1) / 2 + k ∧
      sub64 (nn n - (n - i) * (n - i - 1) / 2 + k) i
        = nn n - (n - i) * (n - i - 1) / 2 + k - i ∧
      1 ≤ nn n - (n - i) * (n - i - 1) / 2 + k - i ∧
      sub64 (nn n - (n - i) * (n - i - 1) / 2 + k - i) 1
        = nn n - (n - i) * (n - i - 1) / 2 + k - i - 1 ∧
      slot64 n i k = slot n i k := by
    intro i k hik hk
    have hX : tri (n - i) ≤ tri n := tri_mono (Nat.sub_le n i)
    have hXd : (n - i) * (n - i - 1) / 2 = tri (n - i) := rfl
    have hNd : nn n = tri n := rfl
    have hmul : (n - i) * (n - i - 1) ≤ n * (n - 1) :=
      Nat.mul_le_mul (Nat.sub_le n i) (by omega)
    have f1 : sub64 n i = n - i := sub64_eq n i (by omega) hn64
    have f2 : sub64 (n - i) 1 = n - i - 1 := sub64_eq _ _ (by omega) (by omega)
    have f3 : mul64 (n - i) (n - i - 1) = (n - i) * (n - i - 1) := mul64_eq _ _ (by omega)
    have f4 : sub64 (nn n) ((n - i) * (n - i - 1) / 2)
        = nn n - (n - i) * (n - i - 1) / 2 := sub64_eq _ _ (by omega) (by omega)
    have f5 : add64 (nn n - (n - i) * (n - i - 1) / 2) k
        = nn n - (n - i) * (n - i - 1) / 2 + k := add64_eq _ _ (by omega)
    have f6 : sub64 (nn n - (n - i) * (n - i - 1) / 2 + k) i
        = nn n - (n - i) * (n - i - 1) / 2 + k - i := sub64_eq _ _ (by omega) (by omega)
    have f7 : sub64 (nn n - (n - i) * (n - i - 1) / 2 + k - i) 1
        = nn n - (n - i) * (n - i - 1) / 2 + k - i - 1 := sub64_eq _ _ (by omega) (by omega)
    refine ⟨by omega, f1, by omega, f2, f3, by omega, f4, f5, by omega, f6, by omega, f7, ?_⟩
    unfold slot64
    rw [e3, f1, f2, f3, f4, f5, f6, f7]
    rfl
  refine ⟨⟨by omega, e1, e2, e3⟩, ?_, hslot⟩
  intro ik hik
  obtain ⟨h1, h2, h3⟩ := div_mod_facts n ik hn2 hik
  have hNd : nn n = tri n := rfl
  have g1 : sub64 n (ik / n) = n - ik / n := sub64_eq _ _ (by omega) hn64
  have g2 : sub64 (n - ik / n) 2 = n - ik / n - 2 := sub64_eq _ _ (by omega) (by omega)
  have g3 : sub64 n (ik % n) = n - ik % n := sub64_eq _ _ (by omega) hn64
  have g4 : sub64 (n - ik % n) 1 = n - ik % n - 1 := sub64_eq _ _ (by omega) (by omega)
  have hfm : forwardMap64 n ik = forwardMap n ik := by
    unfold forwardMap64 forwardMap
    simp only [g1, g2, g3, g4]
  refine ⟨by omega, fun _ => ⟨by omega, g1, by omega, g2, by omega, g3, by omega, g4⟩, hfm, ?_⟩
  rw [hfm]
  obtain ⟨c1, c2, _⟩ := forwardMap_code n ik hn2 hik
  exact (hslot _ _ c1 c2).2.2.2.2.2.2.2.2.2.2.2.2

/-- Instance of C18 at the largest admitted size, `n = 2^32`. -/
theorem index_arithmetic_no_wrap_witness :
    2 ≤ 2 ^ 32 ∧ 2 ^ 32 ≤ 2 ^ 32 ∧ nn64 (2 ^ 32) = nn (2 ^ 32) ∧
    mul64 (2 ^ 32) (2 ^ 32 - 1) = 2 ^ 32 * (2 ^ 32 - 1) :=
  ⟨by norm_num, le_refl _,
   (index_arithmetic_no_wrap (2 ^ 32) (by norm_num) (le_refl _)).1.2.2.2,
   (index_arithmetic_no_wrap (2 ^ 32) (by norm_num) (le_refl _)).1.2.2.1⟩

/-- C19: for `n = 0` and `n = 1` the pair count is `0` also in 64-bit arithmetic (for `n = 0`,
`n - 1` wraps to `2^64 - 1` and the product with `0` is `0`), where it agrees with the count
over the natural numbers; so the output array has length `0`, the pairwise loop runs over the
empty range and leaves every buffer as it is. -/
theorem no_pairs_below_two {β : Type} [Zero β] [Add β] [Sub β] [Mul β] [Div β] [NatCast β]
    (sqrt : β → β) (d : Nat → β) (l : Nat) :
    sub64 0 1 = 2 ^ 64 - 1 ∧ mul64 0 (sub64 0 1) = 0 ∧
    nn64 0 = 0 ∧ nn64 1 = 0 ∧ nn 0 = nn64 0 ∧ nn 1 = nn64 1 ∧
    pearson sqrt d 0 l = [] ∧ pearson sqrt d 1 l = [] ∧
    List.range (nn 0) = [] ∧ List.range (nn 1) = [] ∧
    (∀ m s buf : List β, pairwisePass d 0 l m s buf = buf ∧ pairwisePass d 1 l m s buf = buf) := by
  have h0 : nn 0 = 0 := rfl
  have h1 : nn 1 = 0 := rfl
  refine ⟨by decide, by decide, by decide, by decide, by decide, by decide, ?_, ?_, ?_, ?_, ?_⟩
  · unfold pearson pairwisePass
    rw [h0]
    rfl
  · unfold pearson pairwisePass
    rw [h1]
    rfl
  · rw [h0]
    rfl
  · rw [h1]
    rfl
  · intro m s buf
    unfold pairwisePass
    rw [h0, h1]
    exact ⟨rfl, rfl⟩

/-- C20: for `l = 0` and every `n` (in particular `n ≥ 2`), the unsigned divisor `l - 1` is
`2^64 - 1`, not zero; every mean and every sum of squared deviations is `0`; every standard
deviation is `0`; every per-pair sum is `0`; and every one of the `nn` output values is exactly
`0`, not NaN. The input may hold any doubles: no observation is read. -/
theorem no_observation_gives_zero (d : Nat → Dbl ℝ) (n : Nat) :
    ulPred 0 = 2 ^ 64 - 1 ∧
    ((ulPred 0 : Nat) : Dbl ℝ) = Dbl.fin (2 ^ 64 - 1) ∧
    (∀ i, welford d 0 i = (Dbl.fin 0, Dbl.fin 0)) ∧
    (∀ i, rowStd (Dbl.sqrt Real.sqrt) d 0 i = Dbl.fin 0) ∧
    (∀ i k mi mk si sk, pairSum d 0 i k mi mk si sk = Dbl.fin 0) ∧
    pearson (Dbl.sqrt Real.sqrt) d n 0 = List.replicate (nn n) (Dbl.fin 0) := by
  have h0 : ((ulPred 0 : Nat) : ℝ) = 2 ^ 64 - 1 := by
    unfold ulPred
    norm_num
  have hne : ((ulPred 0 : Nat) : ℝ) ≠ 0 := by
    rw [h0]
    norm_num
  refine ⟨rfl, by rw [dbl_natCast, h0], fun _ => rfl, ?_, fun _ _ _ _ _ _ => rfl, ?_⟩
  · intro i
    have hw : (welford d 0 i).2 = Dbl.fin 0 := rfl
    unfold rowStd
    rw [hw, dbl_natCast, dbl_fin_div _ _ hne, zero_div, dbl_sqrt_fin _ _ (le_refl 0),
      Real.sqrt_zero]
  · unfold pearson
    simp only [pairwisePass_eq, pairValue_empty]
    exact pairwise_fold_replicate _ _ _ _

end CorrCoef
